import Mathlib

/-!
# Verification of the autopost orchestration and deduplication engine

Shallow embedding of `src/main.py` (a multi-tenant Telegram autoposting bot).
Strings are modelled as `List Char`; Python's byte-oriented percent
encoding/decoding is modelled at the code-point level, which coincides with
CPython for inputs whose percent escapes decode to Latin-1/ASCII bytes
(tracking parameters and canonical links in this code base are ASCII).
Dates and times are opaque strings supplied as parameters (`today`,
`now_slot`), exactly as the source reads `str(date.today())` and
`now.strftime("%H:%M")`.
-/

namespace TgAutoposter

/-! ## Basic character and list helpers (Python `str` semantics, ASCII scope) -/

/-- Python whitespace for `str.strip` and the regex class `\s`
(ASCII scope: space, tab, newline, carriage return, vertical tab, form feed). -/
def isPySpace (c : Char) : Bool :=
  c == ' ' || c == '\t' || c == '\n' || c == '\x0b' || c == '\x0c' || c == '\r'

/-- Drop trailing characters satisfying `p` (helper for `str.strip`/`rstrip`). -/
def dropTrailing (p : Char → Bool) (l : List Char) : List Char :=
  (l.reverse.dropWhile p).reverse

/-- Python `str.strip()` (whitespace at both ends). -/
def pyStrip (l : List Char) : List Char :=
  dropTrailing isPySpace (l.dropWhile isPySpace)

/-- Python `str.rstrip()`. -/
def pyRstrip (l : List Char) : List Char :=
  dropTrailing isPySpace l

/-- Split a list at the first occurrence of `sep`, returning the parts
before and after it, or `none` when `sep` does not occur
(Python `s.split(sep, 1)` / `s.find(sep)`). -/
def splitOnFirst (sep : Char) : List Char → Option (List Char × List Char)
  | [] => none
  | c :: cs =>
    if c = sep then some ([], cs)
    else
      match splitOnFirst sep cs with
      | some (a, b) => some (c :: a, b)
      | none => none

/-- `splitOnFirst` only ever returns a strictly shorter second component. -/
theorem splitOnFirst_snd_length_lt (sep : Char) :
    ∀ l a b, splitOnFirst sep l = some (a, b) → b.length < l.length := by
  intro l
  induction l with
  | nil => intro a b h; simp [splitOnFirst] at h
  | cons c cs ih =>
    intro a b h
    simp only [splitOnFirst] at h
    split at h
    · cases h; simp
    · cases h' : splitOnFirst sep cs with
      | none => rw [h'] at h; cases h
      | some ab =>
        rw [h'] at h
        cases h
        have := ih ab.1 ab.2 h'
        simp; omega

/-- Characterization of a successful `splitOnFirst`: the input is the two
parts joined by the separator, and the first part is separator-free. -/
theorem splitOnFirst_eq_some (sep : Char) :
    ∀ l a b, splitOnFirst sep l = some (a, b) → l = a ++ sep :: b ∧ sep ∉ a := by
  intro l
  induction l with
  | nil => intro a b h; simp [splitOnFirst] at h
  | cons c cs ih =>
    intro a b h
    simp only [splitOnFirst] at h
    split at h
    · rename_i hc
      cases h
      simp [hc]
    · rename_i hc
      cases h' : splitOnFirst sep cs with
      | none => rw [h'] at h; cases h
      | some ab =>
        rw [h'] at h
        cases h
        obtain ⟨h1, h2⟩ := ih ab.1 ab.2 h'
        constructor
        · simp [h1]
        · simp only [List.mem_cons]
          rintro (rfl | hmem)
          · exact hc rfl
          · exact h2 hmem

/-- A failing `splitOnFirst` means the separator does not occur. -/
theorem splitOnFirst_eq_none (sep : Char) :
    ∀ l, splitOnFirst sep l = none → sep ∉ l := by
  intro l
  induction l with
  | nil => intro _ h; simp at h
  | cons c cs ih =>
    intro h
    simp only [splitOnFirst] at h
    split at h
    · cases h
    · rename_i hc
      cases h' : splitOnFirst sep cs with
      | none =>
        simp only [List.mem_cons]
        rintro (rfl | hmem)
        · exact hc rfl
        · exact ih h' hmem
      | some ab => rw [h'] at h; cases h

/-- Split on every occurrence of `sep` (Python `s.split(sep)`): an empty
string yields one empty field, and each separator starts a new field. -/
def pySplitAll (sep : Char) : List Char → List (List Char)
  | [] => [[]]
  | c :: cs =>
    if c = sep then [] :: pySplitAll sep cs
    else
      match pySplitAll sep cs with
      | a :: rest => (c :: a) :: rest
      | [] => [[c]]

theorem pySplitAll_ne_nil (sep : Char) (l : List Char) : pySplitAll sep l ≠ [] := by
  cases l with
  | nil => simp [pySplitAll]
  | cons c cs =>
    unfold pySplitAll
    split
    · simp
    · split
      · simp
      · simp

/-! ## Percent codec (`urllib.parse.unquote` / `quote_plus`)

Modelled at the code-point level: `%XY` decodes to the character with code
`0xXY`, and characters are encoded from their code points.  This coincides
with CPython (which decodes to bytes and then UTF-8) for all inputs whose
percent escapes form ASCII/Latin-1 text, which covers the tracking-parameter
workloads of `normalize_url`. -/

def isHexDigit (c : Char) : Bool :=
  ('0' ≤ c && c ≤ '9') || ('a' ≤ c && c ≤ 'f') || ('A' ≤ c && c ≤ 'F')

def hexVal (c : Char) : Nat :=
  if '0' ≤ c && c ≤ '9' then c.toNat - '0'.toNat
  else if 'a' ≤ c && c ≤ 'f' then c.toNat - 'a'.toNat + 10
  else c.toNat - 'A'.toNat + 10

/-- Uppercase hex digit for `d < 16` (as produced by `urllib.parse.quote`). -/
def hexUpper (d : Nat) : Char :=
  if d < 10 then Char.ofNat ('0'.toNat + d) else Char.ofNat ('A'.toNat + (d - 10))

/-- The `'+' → space` then percent-decoding applied by `parse_qsl` to each
field name and value (`unquote(nv.replace('+', ' '))`). -/
def unquotePlusF : Nat → List Char → List Char
  | _, [] => []
  | 0, l => l
  | n + 1, c :: rest =>
    if c = '+' then ' ' :: unquotePlusF n rest
    else if c = '%' then
      match rest with
      | a :: b :: rest' =>
        if isHexDigit a && isHexDigit b then
          Char.ofNat (16 * hexVal a + hexVal b) :: unquotePlusF n rest'
        else '%' :: unquotePlusF n rest
      | _ => '%' :: unquotePlusF n rest
    else c :: unquotePlusF n rest

def unquotePlus (l : List Char) : List Char :=
  unquotePlusF l.length l

/-- Characters `urllib.parse.quote` never escapes (`always_safe`); `urlencode`
passes `safe=''`, so everything else is escaped. -/
def isQuoteSafe (c : Char) : Bool :=
  c.isAlphanum || c == '_' || c == '.' || c == '-' || c == '~'

/-- `urllib.parse.quote_plus` on one character (with `safe=''`). -/
def quotePlusChar (c : Char) : List Char :=
  if isQuoteSafe c then [c]
  else if c == ' ' then ['+']
  else ['%', hexUpper (c.toNat / 16 % 16), hexUpper (c.toNat % 16)]

/-- `urllib.parse.quote_plus` (with `safe=''`), as used by `urlencode`. -/
def quotePlus (l : List Char) : List Char :=
  (l.map quotePlusChar).flatten

/-! ## `urllib.parse.parse_qsl` and `urlencode` -/

/-- One `name=value` field of a query string, split on the first `=` and
percent-decoded; a field without `=` gets an empty value
(`keep_blank_values=True`). -/
def parseQslField (field : List Char) : List Char × List Char :=
  match splitOnFirst '=' field with
  | some (n, v) => (unquotePlus n, unquotePlus v)
  | none => (unquotePlus field, [])

/-- `parse_qsl(query, keep_blank_values=True)`: split on `&`, drop empty
fields, decode each field. -/
def parse_qsl (query : List Char) : List (List Char × List Char) :=
  ((pySplitAll '&' query).filter (fun f => !f.isEmpty)).map parseQslField

/-- `urlencode(pairs, doseq=True)` for string-valued pairs: quote each name
and value and join with `=` and `&`. -/
def urlencode (l : List (List Char × List Char)) : List Char :=
  List.intercalate ['&'] (l.map (fun kv => quotePlus kv.1 ++ '=' :: quotePlus kv.2))

/-! ## `urllib.parse.urlsplit` and `urlunsplit` -/

/-- The parts `(scheme, netloc, path, query, fragment)` of a split URL. -/
structure UrlParts where
  scheme : List Char
  netloc : List Char
  path : List Char
  query : List Char
  fragment : List Char
  deriving Repr, DecidableEq

/-- Characters allowed in a URL scheme (`urllib.parse.scheme_chars`). -/
def isSchemeChar (c : Char) : Bool :=
  c.isAlphanum || c == '+' || c == '-' || c == '.'

/-- Scheme extraction of `urlsplit`: the text before the first `:` is a
scheme when it is non-empty, starts with an ASCII letter and consists of
scheme characters; the scheme is lowercased. -/
def extractScheme (url : List Char) : List Char × List Char :=
  match splitOnFirst ':' url with
  | some (pre, rest) =>
    match pre with
    | [] => ([], url)
    | c :: _ =>
      if c.isAlpha && pre.all isSchemeChar then (pre.map Char.toLower, rest)
      else ([], url)
  | none => ([], url)

/-- A character ending the netloc (`_splitnetloc` stops at `/`, `?`, `#`). -/
def endsNetloc (c : Char) : Bool :=
  c == '/' || c == '?' || c == '#'

/-- Split off the netloc after a leading `//` (`_splitnetloc`). -/
def splitNetloc (r : List Char) : List Char × List Char :=
  if r.take 2 = ['/', '/'] then
    ((r.drop 2).takeWhile (fun c => !endsNetloc c),
     (r.drop 2).dropWhile (fun c => !endsNetloc c))
  else ([], r)

/-- Split at the first occurrence of `sep`: the part before and the part
after; the whole string and an empty remainder when `sep` is absent. -/
def sepSplit (sep : Char) (l : List Char) : List Char × List Char :=
  match splitOnFirst sep l with
  | some (a, b) => (a, b)
  | none => (l, [])

/-- `urllib.parse.urlsplit` (without the IPv6 bracket validation and the
WHATWG control-character stripping of newer CPython, which are no-ops on the
URLs in scope). -/
def urlsplit (url : List Char) : UrlParts :=
  let sr := extractScheme url
  let nr := splitNetloc sr.2
  let fr := sepSplit '#' nr.2
  let pq := sepSplit '?' fr.1
  ⟨sr.1, nr.1, pq.1, pq.2, fr.2⟩

/-- Schemes that use a network location (`urllib.parse.uses_netloc`,
minus the empty entry which is subsumed by the `scheme and` guard). -/
def uses_netloc : List (List Char) :=
  ["ftp".data, "http".data, "gopher".data, "nntp".data, "telnet".data,
   "imap".data, "wais".data, "file".data, "mms".data, "https".data,
   "shttp".data, "snews".data, "prospero".data, "rtsp".data, "rtsps".data,
   "rtspu".data, "rsync".data, "svn".data, "svn+ssh".data, "sftp".data,
   "nfs".data, "git".data, "git+ssh".data, "ws".data, "wss".data]

/-- `urllib.parse.urlunsplit` (CPython 3.11 stdlib as shipped with the
program: `if netloc or (scheme and scheme in uses_netloc and url[:2] != '//')`). -/
def urlunsplit (p : UrlParts) : List Char :=
  let url :=
    if p.netloc ≠ [] ∨
        (p.scheme ≠ [] ∧ uses_netloc.contains p.scheme ∧ p.path.take 2 ≠ ['/', '/']) then
      ['/', '/'] ++ p.netloc ++
        (if p.path ≠ [] ∧ p.path.take 1 ≠ ['/'] then '/' :: p.path else p.path)
    else p.path
  let url := if p.scheme ≠ [] then p.scheme ++ ':' :: url else url
  let url := if p.query ≠ [] then url ++ '?' :: p.query else url
  if p.fragment ≠ [] then url ++ '#' :: p.fragment else url

/-! ## `normalize_url` (src/main.py:301-320) -/

/-- The explicit deny-list of tracking parameters (`banned_exact`). -/
def banned_exact : List (List Char) :=
  ["at_medium".data, "at_campaign".data, "at_bbc_team".data,
   "at_link_origin".data, "fbclid".data, "gclid".data, "igshid".data,
   "mc_cid".data, "mc_eid".data, "utm_source".data, "utm_medium".data,
   "utm_campaign".data, "utm_term".data, "utm_content".data]

/-- A query key is dropped when its lowercase form is in the deny-list or
starts with `utm_` (src/main.py:312-317). -/
def isTrackingKey (k : List Char) : Bool :=
  let kl := k.map Char.toLower
  banned_exact.contains kl || kl.take 4 == "utm_".data

/-- `normalize_url` (src/main.py:301-320): split the URL, parse the query
with blanks kept, drop tracking keys, re-serialize the rest, drop the
fragment. -/
def normalize_url (url : List Char) : List Char :=
  let parts := urlsplit url
  let q := parse_qsl parts.query
  let new_q := q.filter (fun kv => !isTrackingKey kv.1)
  urlunsplit ⟨parts.scheme, parts.netloc, parts.path, urlencode new_q, []⟩

/-- The query pairs `normalize_url` keeps: the parsed query minus tracking
keys (the `new_q` of src/main.py:311-317). -/
def keptQuery (url : List Char) : List (List Char × List Char) :=
  (parse_qsl (urlsplit url).query).filter (fun kv => !isTrackingKey kv.1)

/-! ## Per-tenant configuration (`DEFAULT_CLIENT`, src/main.py:228-254)

Date-valued fields (`daily_date`, `subscription_until`, schedule stamps) are
opaque strings; the ambient `str(date.today())` and `now.strftime("%H:%M")`
are passed in as parameters. -/

structure ClientCfg where
  mode : List Char
  channel : Option (List Char)
  feeds : List (List Char)
  posted_urls : List (List Char)
  autopost_enabled : Bool
  interval_minutes : Int
  schedule_enabled : Bool
  schedule_times : List (List Char)
  last_schedule_date : Option (List Char)
  last_schedule_time : Option (List Char)
  daily_limit : Int
  daily_count : Int
  daily_date : List Char
  max_dedupe : Int
  fetch_entries_per_feed : Nat
  deriving Repr, DecidableEq

/-! ## Daily quota counter (src/main.py:322-335) -/

/-- `ensure_daily_counter` (src/main.py:322-327): when the stored date is
not today, stamp today and reset the count to zero. -/
def ensure_daily_counter (today : List Char) (cfg : ClientCfg) : ClientCfg :=
  if cfg.daily_date ≠ today then { cfg with daily_date := today, daily_count := 0 }
  else cfg

/-- `can_post_more` (src/main.py:329-331): reset-if-stale, then compare
count against limit. -/
def can_post_more (today : List Char) (cfg : ClientCfg) : Bool :=
  let c := ensure_daily_counter today cfg
  c.daily_count < c.daily_limit

/-- `bump_daily_count` (src/main.py:333-335). -/
def bump_daily_count (today : List Char) (cfg : ClientCfg) : ClientCfg :=
  let c := ensure_daily_counter today cfg
  { c with daily_count := c.daily_count + 1 }

/-- The admin `/setlimit` mutation (src/main.py:1268-1277): accepts
`1..5000` and stores the limit unchanged; `none` models the rejected reply. -/
def set_daily_limit (cfg : ClientCfg) (limit : Int) : Option ClientCfg :=
  if 1 ≤ limit ∧ limit ≤ 5000 then some { cfg with daily_limit := limit } else none

/-! ## Dedup index (src/main.py:1169-1171 and 1374-1376) -/

/-- Python's tail slice `l[-m:]` for an `int` bound `m` (the source uses
`cfg["posted_urls"][-int(cfg.get("max_dedupe", 1500)):]`). -/
def pyTailSlice (m : Int) (l : List α) : List α :=
  if 0 < m then l.drop (l.length - m.toNat)
  else if m = 0 then l
  else l.drop (-m).toNat

/-- Recording a published link: append, then keep the last `maxD` entries
(src/main.py:1169-1171, 1374-1376).  `linkN` is the already-normalized link
produced by the selector. -/
def record_seen (posted : List (List Char)) (linkN : List Char) (maxD : Int) :
    List (List Char) :=
  pyTailSlice maxD (posted ++ [linkN])

/-- Membership of a normalized link in the dedup index
(`link_n in posted`, src/main.py:398). -/
def is_seen (posted : List (List Char)) (linkN : List Char) : Bool :=
  posted.contains linkN

/-! ## Cadence gate of the autopost loop (src/main.py:1333-1345) -/

/-- `use_schedule = bool(cfg.get("schedule_enabled") and cfg.get("schedule_times"))`
(src/main.py:1334). -/
def use_schedule (cfg : ClientCfg) : Bool :=
  cfg.schedule_enabled && !cfg.schedule_times.isEmpty

/-- The fixed-slot checks of src/main.py:1336-1341: the current `HH:MM`
must be a configured slot and the `(date, slot)` pair must not equal the
last fired one. -/
def schedule_slot_permits (cfg : ClientCfg) (today now_slot : List Char) : Bool :=
  cfg.schedule_times.contains now_slot &&
    !(cfg.last_schedule_date == some today && cfg.last_schedule_time == some now_slot)

/-- The cadence gate: fixed-slot mode when `use_schedule`, else the
interval check on the transient `last_post_at` map, abstracted as the
boolean `interval_elapsed` (src/main.py:1335-1345). -/
def cadence_permits (cfg : ClientCfg) (today now_slot : List Char)
    (interval_elapsed : Bool) : Bool :=
  if use_schedule cfg then schedule_slot_permits cfg today now_slot
  else interval_elapsed

/-! ## Source selector `pick_newest_unseen` (src/main.py:384-408) -/

/-- One parsed feed entry as consumed by the selector: `feedparser` entries
may lack `link`, `title` and `published_parsed`; `published_parsed` is a
`time.struct_time`, a 9-tuple of integers. -/
structure FeedEntry where
  link : Option (List Char)
  title : Option (List Char)
  published : Option (List Int)
  deriving Repr, DecidableEq

/-- `getattr(e, "title", "Untitled")` (src/main.py:401). -/
def entryTitle (e : FeedEntry) : List Char :=
  e.title.getD "Untitled".data

/-- Python `<` on integer tuples of possibly different lengths
(lexicographic; a strict prefix is smaller). -/
def pyListLt : List Int → List Int → Bool
  | _, [] => false
  | [], _ :: _ => true
  | a :: as', b :: bs => if a < b then true else if b < a then false else pyListLt as' bs

/-- Python `<` on strings (lexicographic by code point). -/
def pyStrLt : List Char → List Char → Bool
  | _, [] => false
  | [], _ :: _ => true
  | a :: as', b :: bs =>
    if a.toNat < b.toNat then true
    else if b.toNat < a.toNat then false
    else pyStrLt as' bs

/-- `published or (0,)` (src/main.py:403): `None` and the empty tuple are
falsy and are replaced by the 1-tuple `(0,)`. -/
def orEpochZero : Option (List Int) → List Int
  | none => [0]
  | some t => if t = [] then [0] else t

/-- Python `>` on the composite keys `(published or (0,), title)`
(src/main.py:403-405). -/
def keyGt (k1 k2 : List Int × List Char) : Bool :=
  pyListLt k2.1 k1.1 || (k1.1 == k2.1 && pyStrLt k2.2 k1.2)

/-- The running best candidate `(published, title, link_normalized, feed_url)`
(src/main.py:387). -/
structure Candidate where
  published : Option (List Int)
  title : List Char
  linkN : List Char
  feedUrl : List Char
  deriving Repr, DecidableEq

/-- The body of the entry loop of `pick_newest_unseen`
(src/main.py:393-406): skip entries without a link, normalize, skip seen
links, then keep the candidate with the greatest composite key. -/
def consider (posted : List (List Char)) (feedUrl : List Char)
    (best : Option Candidate) (e : FeedEntry) : Option Candidate :=
  match e.link with
  | none => best
  | some link =>
    let linkN := normalize_url link
    if is_seen posted linkN then best
    else
      let title := entryTitle e
      let key := (orEpochZero e.published, title)
      match best with
      | none => some ⟨e.published, title, linkN, feedUrl⟩
      | some b =>
        if keyGt key (orEpochZero b.published, b.title) then
          some ⟨e.published, title, linkN, feedUrl⟩
        else best

/-- `pick_newest_unseen` (src/main.py:384-408), with the network fetch
abstracted as the environment `fetch : feed URL → parsed entries`;
`entries[:per_feed]` keeps the first `fetch_entries_per_feed` entries. -/
def pick_newest_unseen (fetch : List Char → List FeedEntry) (cfg : ClientCfg) :
    Option Candidate :=
  cfg.feeds.foldl
    (fun best f =>
      ((fetch f).take cfg.fetch_entries_per_feed).foldl
        (fun b e => consider cfg.posted_urls f b e) best)
    none

/-! ## Output sanitizer `sanitize_llm_post` (src/main.py:365-381)

Each `re.sub` of the source is modelled as a deterministic left-to-right
scanner.  The patterns involved (`https?://\S+`, `^\s*\d+\s*[\)\.\-:]\s*`,
`^\s*(ссылка|link)\s*:\s*.*$`, `^\s*\[\s*link\s*\]\s*$`, `\n{3,}`) contain
no constructs whose greedy maximal-munch matching differs from backtracking
search, so the scanners reproduce `re.sub` exactly (ASCII `\s`/`\d` scope).
The multiline `^` anchor is tracked by a flag that records whether the
previous character of the original string was a newline. -/

/-- Match of `https?://\S+` at the head of the list: the scheme literal
followed by at least one non-space character; returns the rest after the
maximal non-space run. -/
def urlMatchAt (l : List Char) : Option (List Char) :=
  if l.take 7 = "http://".data ∧ isPySpace ((l.drop 7).headD ' ') = false then
    some ((l.drop 7).dropWhile (fun d => !isPySpace d))
  else if l.take 8 = "https://".data ∧ isPySpace ((l.drop 8).headD ' ') = false then
    some ((l.drop 8).dropWhile (fun d => !isPySpace d))
  else none

theorem urlMatchAt_length_lt :
    ∀ l rest, urlMatchAt l = some rest → rest.length < l.length := by
  intro l rest h
  unfold urlMatchAt at h
  split at h
  · rename_i h7
    cases h
    have h1 : ((l.drop 7).dropWhile (fun d => !isPySpace d)).length ≤ (l.drop 7).length :=
      (List.dropWhile_suffix _).length_le
    have h3 : 7 ≤ l.length := by
      have := congrArg List.length h7.1
      simp [List.length_take] at this
      omega
    simp only [List.length_drop] at h1
    omega
  · split at h
    · rename_i h8
      cases h
      have h1 : ((l.drop 8).dropWhile (fun d => !isPySpace d)).length ≤ (l.drop 8).length :=
        (List.dropWhile_suffix _).length_le
      have h3 : 8 ≤ l.length := by
        have := congrArg List.length h8.1
        simp [List.length_take] at this
        omega
      simp only [List.length_drop] at h1
      omega
    · cases h

/-- `re.sub(r"https?://\S+", "", t)` (src/main.py:369). -/
def stripUrls : List Char → List Char
  | [] => []
  | c :: cs =>
    match h : urlMatchAt (c :: cs) with
    | some rest => stripUrls rest
    | none => c :: stripUrls cs
  termination_by l => l.length
  decreasing_by
    · exact urlMatchAt_length_lt _ _ h
    · simp

/-- A line-start-anchored matcher consumes a non-empty prefix: on success
the rest is a strictly shorter suffix of the input. -/
def GoodMatcher (M : List Char → Option (List Char)) : Prop :=
  ∀ l r, M l = some r → r.length < l.length ∧ r <:+ l

/-- Generic scanner for a multiline `re.sub(pattern, "", t)` whose pattern
starts with the `^` anchor: at each position that starts a line (tracked by
`ls`), try the matcher and drop what it consumes; otherwise copy one
character.  Scanning resumes after each match, as `re.sub` does; the next
flag records whether the character of the original string just before the
resume position is a newline. -/
def lineScan (M : List Char → Option (List Char)) (hM : GoodMatcher M) :
    List Char → Bool → List Char
  | [], _ => []
  | c :: cs, ls =>
    if ls then
      match h : M (c :: cs) with
      | some rest =>
        lineScan M hM rest
          (((c :: cs).take ((c :: cs).length - rest.length)).getLast? == some '\n')
      | none => c :: lineScan M hM cs (c == '\n')
    else c :: lineScan M hM cs (c == '\n')
  termination_by l _ => l.length
  decreasing_by
    · exact (hM _ _ h).1
    · simp
    · simp

/-- Matcher for `^\s*\d+\s*[\)\.\-:]\s*` (src/main.py:371): greedy
whitespace, at least one digit, greedy whitespace, one of `) . - :`,
greedy whitespace. -/
def matchEnum (l : List Char) : Option (List Char) :=
  if ((l.dropWhile isPySpace).takeWhile Char.isDigit).isEmpty then none
  else
    match ((l.dropWhile isPySpace).dropWhile Char.isDigit).dropWhile isPySpace with
    | [] => none
    | c :: r4 =>
      if c = ')' ∨ c = '.' ∨ c = '-' ∨ c = ':' then some (r4.dropWhile isPySpace)
      else none

/-- Case folding used for the `re.IGNORECASE` words `link` and `ссылка`:
ASCII plus the Cyrillic uppercase range `А..Я`. -/
def foldLower (c : Char) : Char :=
  if 0x410 ≤ c.toNat ∧ c.toNat ≤ 0x42F then Char.ofNat (c.toNat + 0x20)
  else c.toLower

/-- Case-insensitive literal word match; returns the rest on success. -/
def matchWordCI (w : List Char) (l : List Char) : Option (List Char) :=
  if (l.take w.length).map foldLower = w ∧ w.length ≤ l.length then
    some (l.drop w.length)
  else none

theorem matchWordCI_suffix {w l r : List Char} (h : matchWordCI w l = some r) :
    r <:+ l ∧ r.length + w.length = l.length := by
  unfold matchWordCI at h
  split at h
  · rename_i hc
    cases h
    refine ⟨List.drop_suffix _ _, ?_⟩
    simp [List.length_drop]
    omega
  · cases h

/-- The alternation `(ссылка|link)`: try the first word, then the second. -/
def matchLabelWord (l : List Char) : Option (List Char) :=
  match matchWordCI "ссылка".data l with
  | some r => some r
  | none => matchWordCI "link".data l

theorem matchLabelWord_spec {l r : List Char} (h : matchLabelWord l = some r) :
    r <:+ l ∧ r.length + 4 ≤ l.length := by
  unfold matchLabelWord at h
  split at h
  · rename_i hw
    cases h
    obtain ⟨h1, h2⟩ := matchWordCI_suffix hw
    have : "ссылка".data.length = 6 := by decide
    exact ⟨h1, by omega⟩
  · obtain ⟨h1, h2⟩ := matchWordCI_suffix h
    have : "link".data.length = 4 := by decide
    exact ⟨h1, by omega⟩

/-- Matcher for `^\s*(ссылка|link)\s*:\s*.*$` (src/main.py:373): after the
label and colon, the greedy `\s*` may cross newlines and `.*$` then consumes
to the end of that line; the closing newline is not consumed. -/
def matchLabel (l : List Char) : Option (List Char) :=
  match matchLabelWord (l.dropWhile isPySpace) with
  | none => none
  | some r2 =>
    match r2.dropWhile isPySpace with
    | ':' :: r4 => some ((r4.dropWhile isPySpace).dropWhile (fun c => c ≠ '\n'))
    | _ => none

/-- Matcher for `^\s*\[\s*link\s*\]\s*$` (src/main.py:374): after `]` the
greedy `\s*` must reach the end of the string, or `$` retreats to just
before the last newline of the whitespace run. -/
def matchBracket (l : List Char) : Option (List Char) :=
  match l.dropWhile isPySpace with
  | '[' :: r2 =>
    match matchWordCI "link".data (r2.dropWhile isPySpace) with
    | none => none
    | some r4 =>
      match r4.dropWhile isPySpace with
      | ']' :: r6 =>
        if (r6.dropWhile isPySpace).isEmpty then some []
        else
          match splitOnFirst '\n' (r6.takeWhile isPySpace).reverse with
          | some (a, _) => some ('\n' :: a.reverse ++ r6.dropWhile isPySpace)
          | none => none
      | _ => none
  | _ => none

theorem matchEnum_good : GoodMatcher matchEnum := by
  intro l r h
  unfold matchEnum at h
  split at h
  · cases h
  · split at h
    · cases h
    · rename_i r1ne c r4 heq
      split at h
      · cases h
        have hs1 : l.dropWhile isPySpace <:+ l := List.dropWhile_suffix _
        have hs2 : (l.dropWhile isPySpace).dropWhile Char.isDigit <:+ l.dropWhile isPySpace :=
          List.dropWhile_suffix _
        have hs3 : ((l.dropWhile isPySpace).dropWhile Char.isDigit).dropWhile isPySpace <:+
            (l.dropWhile isPySpace).dropWhile Char.isDigit := List.dropWhile_suffix _
        have hs4 : r4.dropWhile isPySpace <:+ r4 := List.dropWhile_suffix _
        have hs5 : r4 <:+ c :: r4 := ⟨[c], rfl⟩
        have hfin : r4.dropWhile isPySpace <:+ l :=
          (hs4.trans hs5).trans ((heq ▸ hs3).trans (hs2.trans hs1))
        refine ⟨?_, hfin⟩
        have h1 := hfin.length_le
        have h2 := (hs4.trans hs5).length_le
        have h3 := ((heq ▸ hs3).trans (hs2.trans hs1)).length_le
        have h4 : (c :: r4).length = r4.length + 1 := by simp
        have h5 := (hs4).length_le
        omega
      · cases h

theorem matchLabel_good : GoodMatcher matchLabel := by
  intro l r h
  unfold matchLabel at h
  have hs1 : l.dropWhile isPySpace <:+ l := List.dropWhile_suffix _
  split at h
  · cases h
  · rename_i r2 hw
    obtain ⟨hsuf, hlen⟩ := matchLabelWord_spec hw
    split at h
    · rename_i r4 heq
      cases h
      have hs2 : r2.dropWhile isPySpace <:+ r2 := List.dropWhile_suffix _
      have hs3 : r4 <:+ ':' :: r4 := ⟨[':'], rfl⟩
      have hs5 : (r4.dropWhile isPySpace).dropWhile (fun c => c ≠ '\n') <:+
          r4.dropWhile isPySpace := List.dropWhile_suffix _
      have hchain : (r4.dropWhile isPySpace).dropWhile (fun c => c ≠ '\n') <:+ r2 :=
        ((hs5.trans (List.dropWhile_suffix _)).trans hs3).trans (heq ▸ hs2)
      refine ⟨?_, (hchain.trans hsuf).trans hs1⟩
      have h1 := hchain.length_le
      have h2 := hs1.length_le
      omega
    · cases h

theorem matchBracket_good : GoodMatcher matchBracket := by
  intro l r h
  unfold matchBracket at h
  split at h
  · rename_i r2 heq1
    have hs1 : '[' :: r2 <:+ l := heq1 ▸ List.dropWhile_suffix _
    have hsr2 : r2 <:+ l := List.IsSuffix.trans ⟨['['], rfl⟩ hs1
    split at h
    · cases h
    · rename_i r4 hw
      obtain ⟨hsuf, hlen⟩ := matchWordCI_suffix hw
      have hs2 : r2.dropWhile isPySpace <:+ r2 := List.dropWhile_suffix _
      have hr4 : r4 <:+ l := (hsuf.trans hs2).trans hsr2
      have hr4len : r4.length + 5 ≤ l.length := by
        have h1 := hsr2.length_le
        have h2 := hs1.length_le
        have hw4 : "link".data.length = 4 := by decide
        have h5 := hs2.length_le
        simp at h2
        omega
      split at h
      · rename_i r6 heq2
        have hs3 : ']' :: r6 <:+ r4 := heq2 ▸ List.dropWhile_suffix _
        have hr6 : r6 <:+ l := (List.IsSuffix.trans ⟨[']'], rfl⟩ hs3).trans hr4
        have hr6len : r6.length + 6 ≤ l.length := by
          have h1 := hs3.length_le
          simp at h1
          omega
        split at h
        · cases h
          refine ⟨?_, ⟨l, by simp⟩⟩
          simp only [List.length_nil]
          omega
        · split at h
          · rename_i a b hsp
            cases h
            obtain ⟨hw1, _⟩ := splitOnFirst_eq_some '\n' _ _ _ hsp
            have hw2 : r6.takeWhile isPySpace = b.reverse ++ '\n' :: a.reverse := by
              have := congrArg List.reverse hw1
              simpa using this
            have hr6eq : r6 = b.reverse ++ ('\n' :: a.reverse ++ r6.dropWhile isPySpace) := by
              conv_lhs => rw [← List.takeWhile_append_dropWhile (p := isPySpace) (l := r6)]
              rw [hw2]
              simp
            refine ⟨?_, ?_⟩
            · have : ('\n' :: a.reverse ++ r6.dropWhile isPySpace).length ≤ r6.length := by
                conv_rhs => rw [hr6eq]
                simp
              omega
            · exact (show ('\n' :: a.reverse ++ r6.dropWhile isPySpace) <:+ r6 from
                ⟨b.reverse, hr6eq.symm⟩).trans hr6
          · cases h
      · cases h
  · cases h

/-- `re.sub(r"(?m)^\s*\d+\s*[\)\.\-:]\s*", "", t)` (src/main.py:371). -/
def stripEnum (l : List Char) : List Char :=
  lineScan matchEnum matchEnum_good l true

/-- `re.sub(r"(?im)^\s*(ссылка|link)\s*:\s*.*$", "", t)` (src/main.py:373). -/
def stripLabel (l : List Char) : List Char :=
  lineScan matchLabel matchLabel_good l true

/-- `re.sub(r"(?im)^\s*\[\s*link\s*\]\s*$", "", t)` (src/main.py:374). -/
def stripBracket (l : List Char) : List Char :=
  lineScan matchBracket matchBracket_good l true

/-- `re.sub(r"\n{3,}", "\n\n", t)` (src/main.py:376): a run of three or
more newlines collapses to exactly two. -/
def collapseNl : List Char → List Char
  | [] => []
  | c :: cs =>
    if h : c = '\n' then
      List.replicate (min ((c :: cs).takeWhile (fun d => d = '\n')).length 2) '\n' ++
        collapseNl ((c :: cs).dropWhile (fun d => d = '\n'))
    else c :: collapseNl cs
  termination_by l => l.length
  decreasing_by
    · have h1 : ((c :: cs).dropWhile (fun d => d = '\n')).length ≤ cs.length := by
        subst h
        simp only [List.dropWhile_cons, decide_True]
        exact (List.dropWhile_suffix _).length_le
      simp
      omega
    · simp

/-- The placeholder of src/main.py:379. -/
def placeholderText : List Char :=
  "📌 Коротко: в источнике мало деталей.".data

/-- The cleaning pipeline of `sanitize_llm_post` before the link is
appended (src/main.py:366-379): drop `\r`, strip, remove inline URLs,
remove enumeration prefixes, remove label lines, collapse blank lines. -/
def cleanBody (text : List Char) : List Char :=
  pyStrip (collapseNl (stripBracket (stripLabel
    (pyStrip (stripEnum (pyStrip (stripUrls
      (pyStrip (text.filter (fun c => c ≠ '\r'))))))))))

/-- `sanitize_llm_post(text, link)` (src/main.py:365-381): clean the text,
fall back to the placeholder when empty, append `"\n\n🔗 " + link`, and
truncate to 900 characters. -/
def sanitize_llm_post (text link : List Char) : List Char :=
  ((pyRstrip (if cleanBody text = [] then placeholderText else cleanBody text)) ++
    "\n\n🔗 ".data ++ link).take 900

/-- Number of positions of `l` at which `pat` occurs as a contiguous
substring (used to state "the canonical link occurs exactly once"). -/
def countOccs (pat : List Char) : List Char → Nat
  | [] => if pat.isEmpty then 1 else 0
  | c :: cs => (if (c :: cs).take pat.length = pat then 1 else 0) + countOccs pat cs

/-! ## The autopost loop (src/main.py:1306-1387)

One tenant's processing inside the tick is modelled as a pure function of
the stored config, the environment (fetch results, current date/time, the
subscription check, the interval check) and the outcome of the publish
call.  The visible effects are captured as an event trace, in the source's
order; an exception during publish aborts the tenant before any mutation. -/

inductive TickEvent where
  | selected (linkN : List Char)
  | generated (linkN : List Char)
  | publishAttempt (channel : List Char)
  | recordedSeen (linkN : List Char)
  | bumpedDaily
  | savedConfig
  deriving Repr, DecidableEq

/-- Environment of one tick iteration: the ambient date and `HH:MM`, the
result of `subscription_ok` (date parsing is outside the model), the
interval check on the transient `last_post_at` map, the feed fetcher, and
whether the `bot.send_message` publish call succeeds or raises. -/
structure TickEnv where
  today : List Char
  now_slot : List Char
  subscription_ok : Bool
  interval_elapsed : Bool
  fetch : List Char → List FeedEntry
  publish_ok : Bool

/-- Result of processing one tenant in one tick: the trace of visible
effects, the config written by `save_client` (`none` when the tenant was
skipped or aborted by an exception), and whether an exception escaped. -/
structure TenantResult where
  events : List TickEvent
  saved : Option ClientCfg
  raised : Bool
  deriving Repr, DecidableEq

/-- The per-tenant body of `autopost_loop` (src/main.py:1320-1382),
restricted to RSS mode (`creator` mode touches no dedup state).  Gates in
source order: `autopost_enabled`, `subscription_ok`, `can_post_more`,
`channel`, cadence; then feeds, selection, summary/generation, publish,
dedup append + truncate, daily bump, schedule stamp, save. -/
def processTenantRss (env : TickEnv) (cfg : ClientCfg) : TenantResult :=
  if !cfg.autopost_enabled then ⟨[], none, false⟩
  else if !env.subscription_ok then ⟨[], none, false⟩
  else if !can_post_more env.today cfg then ⟨[], none, false⟩
  else
    match cfg.channel with
    | none => ⟨[], none, false⟩
    | some channel =>
      if !cadence_permits cfg env.today env.now_slot env.interval_elapsed then
        ⟨[], none, false⟩
      else if cfg.feeds.isEmpty then ⟨[], none, false⟩
      else
        match pick_newest_unseen env.fetch cfg with
        | none => ⟨[], none, false⟩
        | some best =>
          let preEvents := [TickEvent.selected best.linkN,
                            TickEvent.generated best.linkN,
                            TickEvent.publishAttempt channel]
          if !env.publish_ok then ⟨preEvents, none, true⟩
          else
            let cfg1 := { cfg with
              posted_urls := record_seen cfg.posted_urls best.linkN cfg.max_dedupe }
            let cfg2 := bump_daily_count env.today cfg1
            let cfg3 :=
              if use_schedule cfg then
                { cfg2 with last_schedule_date := some env.today,
                            last_schedule_time := some env.now_slot }
              else cfg2
            ⟨preEvents ++ [TickEvent.recordedSeen best.linkN,
                           TickEvent.bumpedDaily, TickEvent.savedConfig],
             some cfg3, false⟩

/-- One tenant slot of a tick, abstracted for the exception-granularity
claims: a tenant id together with whether processing it raises. -/
structure TenantSpec where
  id : Nat
  raises : Bool
  deriving Repr, DecidableEq

/-- One pass of the `for p in CLIENTS_DIR.glob(...)` loop
(src/main.py:1314-1382) under the surrounding `try` (src/main.py:1310,
1384-1385): tenants are evaluated in order until one raises; the exception
propagates to the tick-level `except`, so the remaining tenants of that
tick are not evaluated.  Returns the ids evaluated and whether the tick
completed. -/
def runTick : List TenantSpec → List Nat × Bool
  | [] => ([], true)
  | t :: ts =>
    if t.raises then ([t.id], false)
    else
      let r := runTick ts
      (t.id :: r.1, r.2)

/-- The `while True` loop (src/main.py:1309-1387): every scheduled tick
runs its body under the catch-all `except`, then sleeps; no exception
terminates the loop.  `sched` lists the tenant population seen by each
successive tick. -/
def autopost_loop (sched : List (List TenantSpec)) : List (List Nat × Bool) :=
  sched.map runTick

/-! ## Shared sample data for witnesses -/

/-- A sample tenant config (the shape of `DEFAULT_CLIENT` with an active
subscription-era setup), specialized per witness below. -/
def baseCfg : ClientCfg where
  mode := "rss".data
  channel := some "@chan".data
  feeds := ["http://feed.example/rss".data]
  posted_urls := []
  autopost_enabled := true
  interval_minutes := 30
  schedule_enabled := false
  schedule_times := []
  last_schedule_date := none
  last_schedule_time := none
  daily_limit := 10
  daily_count := 0
  daily_date := "2026-10-11".data
  max_dedupe := 1500
  fetch_entries_per_feed := 15

/-! ## Selector specification helpers (for the `pick_newest_unseen` claims) -/

/-- The composite key `(published or (0,), title)` of a running best. -/
def keyOfCand (c : Candidate) : List Int × List Char :=
  (orEpochZero c.published, c.title)

/-- The composite key of a feed entry. -/
def keyOfPair (p : FeedEntry × List Char) : List Int × List Char :=
  (orEpochZero p.1.published, entryTitle p.1)

/-- An entry is a selectable candidate: it has a link whose normalized form
is not yet in the dedup index. -/
def IsUnseenCand (posted : List (List Char)) (p : FeedEntry × List Char) : Bool :=
  match p.1.link with
  | some lk => !is_seen posted (normalize_url lk)
  | none => false

/-- The candidate the selector would build from an entry. -/
def candOfPair (p : FeedEntry × List Char) : Candidate :=
  ⟨p.1.published, entryTitle p.1, normalize_url (p.1.link.getD []), p.2⟩

/-- The pool the selector ranges over: the first `fetch_entries_per_feed`
entries of each configured feed, paired with their feed URL, in source
order. -/
def poolOf (fetch : List Char → List FeedEntry) (cfg : ClientCfg) :
    List (FeedEntry × List Char) :=
  (cfg.feeds.map
    (fun f => ((fetch f).take cfg.fetch_entries_per_feed).map (fun e => (e, f)))).flatten

/-! ## C8: daily quota reset on date rollover -/

/-- C8: when the stored `daily_date` differs from today, the quota gate
stamps today and resets the counter to zero before comparing against the
limit, so the check passes exactly when the limit is positive — in
particular with `daily_count = daily_limit = 10` and yesterday's date, the
first check after rollover returns true before any post is counted. -/
theorem daily_rollover_resets_quota (today : List Char) (cfg : ClientCfg)
    (hstale : cfg.daily_date ≠ today) :
    (ensure_daily_counter today cfg).daily_count = 0 ∧
    (ensure_daily_counter today cfg).daily_date = today ∧
    (ensure_daily_counter today cfg).daily_limit = cfg.daily_limit ∧
    (can_post_more today cfg = true ↔ 0 < cfg.daily_limit) := by
  have he : ensure_daily_counter today cfg =
      { cfg with daily_date := today, daily_count := 0 } := by
    unfold ensure_daily_counter
    rw [if_pos hstale]
  refine ⟨by rw [he], by rw [he], by rw [he], ?_⟩
  unfold can_post_more
  rw [he]
  simp

theorem daily_rollover_resets_quota_witness :
    can_post_more "2026-10-12".data
      { baseCfg with daily_count := 10, daily_limit := 10 } = true := by
  have h := daily_rollover_resets_quota "2026-10-12".data
    { baseCfg with daily_count := 10, daily_limit := 10 } (by decide)
  exact h.2.2.2.mpr (by norm_num)

/-! ## C9: fixed-slot cadence gate -/

/-- C9: with scheduling enabled and a non-empty slot list, the fixed-slot
branch drives the cadence gate (the interval check is ignored); posting is
permitted iff the current `HH:MM` is a configured slot and the `(date,
slot)` pair differs from the last fired one; with
`last = (today, slot)` the gate denies at `slot` today and permits at
`slot` on a different day. -/
theorem fixed_slot_cadence_gate (cfg : ClientCfg) (today tomorrow slot : List Char)
    (hsched : cfg.schedule_enabled = true) (hslots : cfg.schedule_times ≠ [])
    (hmem : cfg.schedule_times.contains slot = true)
    (hdate : cfg.last_schedule_date = some today)
    (htime : cfg.last_schedule_time = some slot)
    (hne : tomorrow ≠ today) :
    (∀ d s ie, cadence_permits cfg d s ie = schedule_slot_permits cfg d s) ∧
    (∀ d s ie, cadence_permits cfg d s ie = true ↔
      (cfg.schedule_times.contains s = true ∧
        ¬(cfg.last_schedule_date = some d ∧ cfg.last_schedule_time = some s))) ∧
    (∀ ie, cadence_permits cfg today slot ie = false) ∧
    (∀ ie, cadence_permits cfg tomorrow slot ie = true) := by
  have huse : use_schedule cfg = true := by
    unfold use_schedule
    simp [hsched, hslots]
  have hdrive : ∀ d s ie, cadence_permits cfg d s ie = schedule_slot_permits cfg d s := by
    intro d s ie
    unfold cadence_permits
    simp [huse]
  have hiff : ∀ d s ie, cadence_permits cfg d s ie = true ↔
      (cfg.schedule_times.contains s = true ∧
        ¬(cfg.last_schedule_date = some d ∧ cfg.last_schedule_time = some s)) := by
    intro d s ie
    rw [hdrive]
    unfold schedule_slot_permits
    constructor
    · intro h
      rw [Bool.and_eq_true, Bool.not_eq_true'] at h
      refine ⟨h.1, ?_⟩
      rintro ⟨hd, ht⟩
      rw [hd, ht] at h
      simp at h
    · rintro ⟨h1, h2⟩
      rw [Bool.and_eq_true, Bool.not_eq_true']
      refine ⟨h1, ?_⟩
      rw [Bool.and_eq_false_iff]
      by_cases hd : cfg.last_schedule_date = some d
      · right
        rw [beq_eq_false_iff_ne]
        intro ht
        exact h2 ⟨hd, by simpa using ht⟩
      · left
        rw [beq_eq_false_iff_ne]
        simpa using hd
  refine ⟨hdrive, hiff, ?_, ?_⟩
  · intro ie
    rw [Bool.eq_false_iff]
    intro hc
    exact ((hiff today slot ie).mp hc).2 ⟨hdate, htime⟩
  · intro ie
    exact (hiff tomorrow slot ie).mpr ⟨hmem, fun ⟨hd, _⟩ => hne (by
      rw [hdate] at hd
      simpa using hd.symm)⟩

theorem fixed_slot_cadence_gate_witness :
    cadence_permits
      { baseCfg with schedule_enabled := true, schedule_times := ["09:00".data],
                     last_schedule_date := some "2026-10-12".data,
                     last_schedule_time := some "09:00".data }
      "2026-10-12".data "09:00".data true = false ∧
    cadence_permits
      { baseCfg with schedule_enabled := true, schedule_times := ["09:00".data],
                     last_schedule_date := some "2026-10-12".data,
                     last_schedule_time := some "09:00".data }
      "2026-10-13".data "09:00".data false = true := by
  have h := fixed_slot_cadence_gate
    { baseCfg with schedule_enabled := true, schedule_times := ["09:00".data],
                   last_schedule_date := some "2026-10-12".data,
                   last_schedule_time := some "09:00".data }
    "2026-10-12".data "2026-10-13".data "09:00".data
    rfl (by decide) (by decide) rfl rfl (by decide)
  exact ⟨h.2.2.1 true, h.2.2.2 false⟩

/-! ## C4: the `daily_count ≤ daily_limit` invariant -/

/-- C4 counterexample: the claim that every mutation preserves
`daily_count ≤ daily_limit` fails on the admin `/setlimit` command, which
accepts any limit in `1..5000` without clamping the current counter:
starting from `daily_count = daily_limit = 10`, setting the limit to `5`
yields `daily_count = 10 > 5 = daily_limit`. -/
theorem setlimit_quota_counterexample :
    set_daily_limit { baseCfg with daily_count := 10 } 5 =
      some { baseCfg with daily_count := 10, daily_limit := 5 } ∧
    ¬((fun c => c.daily_count ≤ c.daily_limit)
        { baseCfg with daily_count := 10, daily_limit := 5 }) := by
  constructor
  · unfold set_daily_limit
    rw [if_pos (by norm_num)]
  · norm_num

/-- C4 (amended): posting once — which the code always guards with
`can_post_more` — preserves `daily_count ≤ daily_limit`, and so does the
daily reset (given a non-negative limit); but the admin limit change does
not clamp the counter, so it can break the invariant (see the
counterexample). -/
theorem quota_invariant_after_mutations (today : List Char) (cfg : ClientCfg) :
    (can_post_more today cfg = true →
      (bump_daily_count today cfg).daily_count ≤ (bump_daily_count today cfg).daily_limit) ∧
    (cfg.daily_count ≤ cfg.daily_limit → 0 ≤ cfg.daily_limit →
      (ensure_daily_counter today cfg).daily_count ≤
        (ensure_daily_counter today cfg).daily_limit) ∧
    (∀ lim cfg', set_daily_limit cfg lim = some cfg' →
      cfg'.daily_count = cfg.daily_count ∧ cfg'.daily_limit = lim) := by
  refine ⟨?_, ?_, ?_⟩
  · intro hcan
    unfold can_post_more at hcan
    unfold bump_daily_count
    simp only [decide_eq_true_eq] at hcan
    simp
    omega
  · intro hinv hpos
    unfold ensure_daily_counter
    split
    · simpa using hpos
    · exact hinv
  · intro lim cfg' h
    unfold set_daily_limit at h
    split at h
    · cases h
      exact ⟨rfl, rfl⟩
    · cases h

theorem quota_invariant_after_mutations_witness :
    (bump_daily_count "2026-10-12".data
        { baseCfg with daily_count := 3, daily_date := "2026-10-12".data }).daily_count ≤
      (bump_daily_count "2026-10-12".data
        { baseCfg with daily_count := 3, daily_date := "2026-10-12".data }).daily_limit :=
  (quota_invariant_after_mutations "2026-10-12".data
    { baseCfg with daily_count := 3, daily_date := "2026-10-12".data }).1 (by decide)

/-! ## C5: exception granularity of the orchestration loop -/

/-- C5 counterexample: the `try` of `autopost_loop` wraps the whole
per-tick `for` loop (src/main.py:1309-1385), not each tenant: with two
tenants where the first raises, the second is not evaluated in that tick,
contradicting the claim that every remaining tenant is still evaluated. -/
theorem tick_skips_remaining_counterexample :
    runTick [⟨1, true⟩, ⟨2, false⟩] = ([1], false) ∧
    2 ∉ (runTick [⟨1, true⟩, ⟨2, false⟩]).1 := by
  constructor
  · rfl
  · decide

/-- C5 (amended): a per-tenant exception is caught at the granularity of
the whole tick: the tenants before the raiser (and the raiser) are the only
ones evaluated in that tick, the remaining tenants are skipped, and the
loop itself never crashes — every scheduled tick still runs (the loop
sleeps and retries on the next tick). -/
theorem tick_error_containment (sched : List (List TenantSpec)) :
    (autopost_loop sched).length = sched.length ∧
    (∀ ts : List TenantSpec, runTick ts =
      ((ts.takeWhile (fun t => !t.raises)).map TenantSpec.id ++
        ((ts.dropWhile (fun t => !t.raises)).take 1).map TenantSpec.id,
       ts.all (fun t => !t.raises))) := by
  constructor
  · simp [autopost_loop]
  · intro ts
    induction ts with
    | nil => rfl
    | cons t ts ih =>
      by_cases hr : t.raises
      · simp [runTick, hr]
      · simp only [runTick, hr, if_neg]
        rw [ih]
        simp [hr]

/-! ## C3: publish failure leaves all state untouched -/

/-- C3: within one tenant's RSS pass, the event trace always starts with
selection, then generation, then the publish attempt; when the publish
call raises, no `recordedSeen`, `bumpedDaily` or `savedConfig` event occurs
and nothing is saved, so `posted_urls`, `daily_count` and the persisted
config are unchanged and the same item is eligible again next tick. -/
theorem rss_publish_failure_no_mutation (env : TickEnv) (cfg : ClientCfg)
    (hfail : env.publish_ok = false) :
    (processTenantRss env cfg).saved = none ∧
    ((processTenantRss env cfg).events = [] ∨
      ∃ lN ch, (processTenantRss env cfg).events =
        [TickEvent.selected lN, TickEvent.generated lN, TickEvent.publishAttempt ch]) := by
  unfold processTenantRss
  split
  · exact ⟨rfl, Or.inl rfl⟩
  · split
    · exact ⟨rfl, Or.inl rfl⟩
    · split
      · exact ⟨rfl, Or.inl rfl⟩
      · split
        · exact ⟨rfl, Or.inl rfl⟩
        · split
          · exact ⟨rfl, Or.inl rfl⟩
          · split
            · exact ⟨rfl, Or.inl rfl⟩
            · split
              · exact ⟨rfl, Or.inl rfl⟩
              · rename_i best hbest
                rw [if_pos (by simp [hfail])]
                exact ⟨rfl, Or.inr ⟨best.linkN, _, rfl⟩⟩

theorem rss_publish_failure_no_mutation_witness :
    (processTenantRss
      { today := "2026-10-12".data, now_slot := "09:00".data,
        subscription_ok := true, interval_elapsed := true,
        fetch := fun _ => [⟨some "http://x/1".data, some "A".data, none⟩],
        publish_ok := false }
      { baseCfg with daily_date := "2026-10-12".data }).saved = none :=
  (rss_publish_failure_no_mutation
    { today := "2026-10-12".data, now_slot := "09:00".data,
      subscription_ok := true, interval_elapsed := true,
      fetch := fun _ => [⟨some "http://x/1".data, some "A".data, none⟩],
      publish_ok := false }
    { baseCfg with daily_date := "2026-10-12".data } rfl).1

/-! ## C1: dedup list append, FIFO truncation, duplicates -/

theorem pyTailSlice_of_fits {α : Type} {m : Int} (hm : 0 < m) (l : List α)
    (h : l.length ≤ m.toNat) : pyTailSlice m l = l := by
  unfold pyTailSlice
  rw [if_pos hm]
  have h0 : l.length - m.toNat = 0 := by omega
  rw [h0, List.drop_zero]

theorem record_seen_foldl_fits {m : Int} (hm : 1 ≤ m) :
    ∀ (links : List (List Char)) (acc : List (List Char)),
      acc.length + links.length ≤ m.toNat →
      links.foldl (fun a l => record_seen a l m) acc = acc ++ links := by
  intro links
  induction links with
  | nil => intro acc _; simp
  | cons l ls ih =>
    intro acc hfit
    have hstep : record_seen acc l m = acc ++ [l] := by
      unfold record_seen
      apply pyTailSlice_of_fits (by omega)
      simp at hfit ⊢
      omega
    simp only [List.foldl_cons, hstep]
    rw [ih (acc ++ [l]) (by simp at hfit ⊢; omega)]
    simp

/-- C1 (amended): `record_seen` appends the normalized URL and keeps the
last `maxDedupe` entries (FIFO, for `maxDedupe ≥ 1`): the list never
exceeds `maxDedupe`, the recorded URL is seen afterwards, `maxDedupe + 1`
insertions starting from empty evict exactly the oldest and keep the
newest `maxDedupe` in insertion order, and up to `maxDedupe` insertions
are kept verbatim.  (Recording an already-present URL appends a duplicate
entry — see the counterexample — the system itself never does so because
only unseen links reach the recording step.) -/
theorem record_seen_fifo_spec (posted : List (List Char)) (url : List Char)
    (m : Int) (hm : 1 ≤ m) :
    (record_seen posted (normalize_url url) m).length ≤ m.toNat ∧
    is_seen (record_seen posted (normalize_url url) m) (normalize_url url) = true ∧
    (∀ (init : List (List Char)) (last : List Char), init.length = m.toNat →
      (init ++ [last]).foldl (fun a l => record_seen a l m) [] = (init ++ [last]).drop 1) ∧
    (∀ links : List (List Char), links.length ≤ m.toNat →
      links.foldl (fun a l => record_seen a l m) [] = links) := by
  have hm0 : 0 < m := by omega
  have hmt : 1 ≤ m.toNat := by omega
  refine ⟨?_, ?_, ?_, ?_⟩
  · unfold record_seen pyTailSlice
    rw [if_pos hm0]
    simp
    omega
  · unfold record_seen pyTailSlice is_seen
    rw [if_pos hm0]
    have hk : (posted ++ [normalize_url url]).length - m.toNat ≤ posted.length := by
      simp
      omega
    rw [List.drop_append_of_le_length hk]
    simp
  · intro init last hlen
    rw [List.foldl_append]
    rw [record_seen_foldl_fits hm init [] (by simp; omega)]
    simp only [List.foldl_cons, List.foldl_nil, List.nil_append]
    unfold record_seen pyTailSlice
    rw [if_pos hm0]
    have h1 : (init ++ [last]).length - m.toNat = 1 := by
      simp
      omega
    rw [h1]
  · intro links hlen
    simpa using record_seen_foldl_fits hm links [] (by simpa using hlen)

theorem record_seen_fifo_spec_witness :
    is_seen (record_seen [] (normalize_url "http://a/x".data) 1500)
      (normalize_url "http://a/x".data) = true :=
  (record_seen_fifo_spec [] "http://a/x".data 1500 (by norm_num)).2.1

/-- C1 counterexample: recording a URL that is already in the seen list
does create a duplicate entry — the code appends unconditionally
(src/main.py:1170) — refuting "never creates a duplicate entry". -/
theorem record_seen_duplicate_counterexample :
    record_seen ["http://a/x".data] (normalize_url "http://a/x".data) 1500 =
      ["http://a/x".data, "http://a/x".data] ∧
    (record_seen ["http://a/x".data] (normalize_url "http://a/x".data) 1500).count
      "http://a/x".data = 2 := by
  constructor
  · decide
  · decide

/-! ## C7: the selector returns the globally best unseen entry

Order lemmas for the Python tuple comparison used by the selector. -/

theorem pyListLt_nil (a : List Int) : pyListLt a [] = false := by
  cases a <;> rfl

theorem pyListLt_cons_iff {x y : Int} {xs ys : List Int} :
    pyListLt (x :: xs) (y :: ys) = true ↔ x < y ∨ (x = y ∧ pyListLt xs ys = true) := by
  have hdef : pyListLt (x :: xs) (y :: ys) =
      if x < y then true else if y < x then false else pyListLt xs ys := rfl
  rw [hdef]
  by_cases h1 : x < y
  · rw [if_pos h1]
    simp [h1]
  · rw [if_neg h1]
    by_cases h2 : y < x
    · rw [if_pos h2]
      constructor
      · intro h; cases h
      · rintro (h | ⟨h, _⟩) <;> omega
    · rw [if_neg h2]
      have hxy : x = y := by omega
      subst hxy
      simp

theorem pyListLt_irrefl (a : List Int) : pyListLt a a = false := by
  induction a with
  | nil => rfl
  | cons x xs ih =>
    rw [Bool.eq_false_iff]
    intro h
    rcases pyListLt_cons_iff.mp h with h' | ⟨_, h'⟩
    · omega
    · rw [ih] at h'
      cases h'

theorem pyListLt_trans :
    ∀ {a b c : List Int}, pyListLt a b = true → pyListLt b c = true →
      pyListLt a c = true := by
  intro a
  induction a with
  | nil =>
    intro b c hab hbc
    cases c with
    | nil => rw [pyListLt_nil] at hbc; cases hbc
    | cons z zs => rfl
  | cons x xs ih =>
    intro b c hab hbc
    cases b with
    | nil => rw [pyListLt_nil] at hab; cases hab
    | cons y ys =>
      cases c with
      | nil => rw [pyListLt_nil] at hbc; cases hbc
      | cons z zs =>
        rcases pyListLt_cons_iff.mp hab with h1 | ⟨h1, h1'⟩ <;>
          rcases pyListLt_cons_iff.mp hbc with h2 | ⟨h2, h2'⟩ <;>
          apply pyListLt_cons_iff.mpr
        · left; omega
        · left; omega
        · left; omega
        · right
          exact ⟨by omega, ih h1' h2'⟩

theorem pyListLt_connex :
    ∀ {a b : List Int}, pyListLt a b = false → pyListLt b a = false → a = b := by
  intro a
  induction a with
  | nil =>
    intro b hab _
    cases b with
    | nil => rfl
    | cons y ys => cases hab
  | cons x xs ih =>
    intro b hab hba
    cases b with
    | nil => cases hba
    | cons y ys =>
      have h1 : ¬(x < y ∨ (x = y ∧ pyListLt xs ys = true)) := by
        rw [← pyListLt_cons_iff]
        simp [hab]
      have h2 : ¬(y < x ∨ (y = x ∧ pyListLt ys xs = true)) := by
        rw [← pyListLt_cons_iff]
        simp [hba]
      push_neg at h1 h2
      have hxy : x = y := by omega
      have hxs : pyListLt xs ys = false := by
        rw [Bool.eq_false_iff]
        exact h1.2 hxy
      have hys : pyListLt ys xs = false := by
        rw [Bool.eq_false_iff]
        exact h2.2 hxy.symm
      rw [hxy, ih hxs hys]

theorem char_toNat_inj {a b : Char} (h : a.toNat = b.toNat) : a = b :=
  Char.ext (by exact UInt32.toNat.inj h)

theorem pyStrLt_nil (a : List Char) : pyStrLt a [] = false := by
  cases a <;> rfl

theorem pyStrLt_cons_iff {x y : Char} {xs ys : List Char} :
    pyStrLt (x :: xs) (y :: ys) = true ↔
      x.toNat < y.toNat ∨ (x = y ∧ pyStrLt xs ys = true) := by
  have hdef : pyStrLt (x :: xs) (y :: ys) =
      if x.toNat < y.toNat then true
      else if y.toNat < x.toNat then false else pyStrLt xs ys := rfl
  rw [hdef]
  by_cases h1 : x.toNat < y.toNat
  · rw [if_pos h1]
    simp [h1]
  · rw [if_neg h1]
    by_cases h2 : y.toNat < x.toNat
    · rw [if_pos h2]
      constructor
      · intro h; cases h
      · rintro (h | ⟨h, _⟩)
        · omega
        · rw [h] at h2; omega
    · rw [if_neg h2]
      have hxy : x = y := char_toNat_inj (by omega)
      subst hxy
      simp

theorem pyStrLt_irrefl (a : List Char) : pyStrLt a a = false := by
  induction a with
  | nil => rfl
  | cons x xs ih =>
    rw [Bool.eq_false_iff]
    intro h
    rcases pyStrLt_cons_iff.mp h with h' | ⟨_, h'⟩
    · omega
    · rw [ih] at h'
      cases h'

theorem pyStrLt_trans :
    ∀ {a b c : List Char}, pyStrLt a b = true → pyStrLt b c = true →
      pyStrLt a c = true := by
  intro a
  induction a with
  | nil =>
    intro b c hab hbc
    cases c with
    | nil => rw [pyStrLt_nil] at hbc; cases hbc
    | cons z zs => rfl
  | cons x xs ih =>
    intro b c hab hbc
    cases b with
    | nil => rw [pyStrLt_nil] at hab; cases hab
    | cons y ys =>
      cases c with
      | nil => rw [pyStrLt_nil] at hbc; cases hbc
      | cons z zs =>
        rcases pyStrLt_cons_iff.mp hab with h1 | ⟨h1, h1'⟩ <;>
          rcases pyStrLt_cons_iff.mp hbc with h2 | ⟨h2, h2'⟩ <;>
          apply pyStrLt_cons_iff.mpr
        · left; omega
        · left; rw [← h2]; exact h1
        · left; rw [h1]; exact h2
        · right
          exact ⟨h1.trans h2, ih h1' h2'⟩

theorem pyStrLt_connex :
    ∀ {a b : List Char}, pyStrLt a b = false → pyStrLt b a = false → a = b := by
  intro a
  induction a with
  | nil =>
    intro b hab _
    cases b with
    | nil => rfl
    | cons y ys => cases hab
  | cons x xs ih =>
    intro b hab hba
    cases b with
    | nil => cases hba
    | cons y ys =>
      have h1 : ¬(x.toNat < y.toNat ∨ (x = y ∧ pyStrLt xs ys = true)) := by
        rw [← pyStrLt_cons_iff]
        simp [hab]
      have h2 : ¬(y.toNat < x.toNat ∨ (y = x ∧ pyStrLt ys xs = true)) := by
        rw [← pyStrLt_cons_iff]
        simp [hba]
      push_neg at h1 h2
      have hxy : x = y := char_toNat_inj (by omega)
      have hxs : pyStrLt xs ys = false := by
        rw [Bool.eq_false_iff]
        exact h1.2 hxy
      have hys : pyStrLt ys xs = false := by
        rw [Bool.eq_false_iff]
        exact h2.2 hxy.symm
      rw [hxy, ih hxs hys]

theorem keyGt_iff {k1 k2 : List Int × List Char} :
    keyGt k1 k2 = true ↔
      pyListLt k2.1 k1.1 = true ∨ (k1.1 = k2.1 ∧ pyStrLt k2.2 k1.2 = true) := by
  unfold keyGt
  rw [Bool.or_eq_true, Bool.and_eq_true, beq_iff_eq]

theorem keyGt_irrefl (k : List Int × List Char) : keyGt k k = false := by
  rw [Bool.eq_false_iff]
  intro h
  rcases keyGt_iff.mp h with h' | ⟨_, h'⟩
  · rw [pyListLt_irrefl] at h'; cases h'
  · rw [pyStrLt_irrefl] at h'; cases h'

theorem keyGt_trans {k1 k2 k3 : List Int × List Char}
    (h12 : keyGt k1 k2 = true) (h23 : keyGt k2 k3 = true) : keyGt k1 k3 = true := by
  rcases keyGt_iff.mp h12 with ha | ⟨ha, ha'⟩ <;>
    rcases keyGt_iff.mp h23 with hb | ⟨hb, hb'⟩ <;> apply keyGt_iff.mpr
  · exact Or.inl (pyListLt_trans hb ha)
  · exact Or.inl (hb ▸ ha)
  · exact Or.inl (ha ▸ hb)
  · exact Or.inr ⟨ha.trans hb, pyStrLt_trans hb' ha'⟩

theorem keyGt_asymm {k1 k2 : List Int × List Char}
    (h : keyGt k1 k2 = true) : keyGt k2 k1 = false := by
  rw [Bool.eq_false_iff]
  intro h'
  have := keyGt_trans h h'
  rw [keyGt_irrefl] at this
  cases this

theorem keyGt_false_trans {k1 k2 k3 : List Int × List Char}
    (h12 : keyGt k1 k2 = false) (h23 : keyGt k2 k3 = false) : keyGt k1 k3 = false := by
  have h12' : ¬(pyListLt k2.1 k1.1 = true ∨ (k1.1 = k2.1 ∧ pyStrLt k2.2 k1.2 = true)) := by
    rw [← keyGt_iff]
    simp [h12]
  have h23' : ¬(pyListLt k3.1 k2.1 = true ∨ (k2.1 = k3.1 ∧ pyStrLt k3.2 k2.2 = true)) := by
    rw [← keyGt_iff]
    simp [h23]
  push_neg at h12' h23'
  rw [Bool.eq_false_iff]
  intro h
  rcases keyGt_iff.mp h with hc | ⟨hc, hc'⟩
  · cases hlt : pyListLt k1.1 k2.1 with
    | true =>
      cases hlt2 : pyListLt k2.1 k3.1 with
      | true =>
        have := pyListLt_trans (pyListLt_trans hc hlt) hlt2
        rw [pyListLt_irrefl] at this
        cases this
      | false =>
        have heq : k2.1 = k3.1 :=
          pyListLt_connex hlt2 (Bool.eq_false_iff.mpr h23'.1)
        have := pyListLt_trans (heq ▸ hc) hlt
        rw [pyListLt_irrefl] at this
        cases this
    | false =>
      have heq : k1.1 = k2.1 :=
        pyListLt_connex hlt (Bool.eq_false_iff.mpr h12'.1)
      exact h23'.1 (heq ▸ hc)
  · cases hlt : pyListLt k1.1 k2.1 with
    | true =>
      exact h23'.1 (hc ▸ hlt)
    | false =>
      have heq : k1.1 = k2.1 :=
        pyListLt_connex hlt (Bool.eq_false_iff.mpr h12'.1)
      have heq2 : k2.1 = k3.1 := heq ▸ hc
      have hs1 : pyStrLt k2.2 k1.2 = false := Bool.eq_false_iff.mpr (h12'.2 heq)
      have hs2 : pyStrLt k3.2 k2.2 = false := Bool.eq_false_iff.mpr (h23'.2 heq2)
      cases hslt : pyStrLt k1.2 k2.2 with
      | true =>
        have := pyStrLt_trans hc' hslt
        rw [hs2] at this
        cases this
      | false =>
        have heqs : k1.2 = k2.2 := pyStrLt_connex hslt hs1
        rw [heqs, hs2] at hc'
        cases hc'

theorem consider_link_none {posted : List (List Char)} {f : List Char}
    {b : Option Candidate} {e : FeedEntry} (hl : e.link = none) :
    consider posted f b e = b := by
  unfold consider
  rw [hl]

theorem consider_link_some_none {posted : List (List Char)} {f : List Char}
    {e : FeedEntry} {lk : List Char} (hl : e.link = some lk) :
    consider posted f none e =
      if is_seen posted (normalize_url lk) then none
      else some ⟨e.published, entryTitle e, normalize_url lk, f⟩ := by
  unfold consider
  rw [hl]

theorem consider_link_some_some {posted : List (List Char)} {f : List Char}
    {e : FeedEntry} {lk : List Char} {b0 : Candidate} (hl : e.link = some lk) :
    consider posted f (some b0) e =
      if is_seen posted (normalize_url lk) then some b0
      else if keyGt (orEpochZero e.published, entryTitle e)
          (orEpochZero b0.published, b0.title) then
        some ⟨e.published, entryTitle e, normalize_url lk, f⟩
      else some b0 := by
  unfold consider
  rw [hl]

theorem unseenCand_link_some {posted : List (List Char)} {f : List Char}
    {e : FeedEntry} {lk : List Char} (hl : e.link = some lk) :
    IsUnseenCand posted (e, f) = !is_seen posted (normalize_url lk) := by
  unfold IsUnseenCand
  rw [hl]

theorem unseenCand_link_none {posted : List (List Char)} {f : List Char}
    {e : FeedEntry} (hl : e.link = none) : IsUnseenCand posted (e, f) = false := by
  unfold IsUnseenCand
  rw [hl]

/-- `consider` returns `none` exactly when it started with `none` and the
entry is not an unseen candidate. -/
theorem consider_none_iff {posted : List (List Char)} {f : List Char}
    {b : Option Candidate} {e : FeedEntry} :
    consider posted f b e = none ↔ b = none ∧ IsUnseenCand posted (e, f) = false := by
  cases hl : e.link with
  | none => simp [consider_link_none hl, unseenCand_link_none hl]
  | some lk =>
    rw [unseenCand_link_some hl]
    by_cases hs : is_seen posted (normalize_url lk) = true
    · cases b with
      | none => simp [consider_link_some_none hl, hs]
      | some b0 => simp [consider_link_some_some hl, hs]
    · rw [Bool.not_eq_true] at hs
      cases b with
      | none => simp [consider_link_some_none hl, hs]
      | some b0 =>
        rw [consider_link_some_some hl, if_neg (by simp [hs])]
        constructor
        · intro hc
          split at hc <;> simp at hc
        · rintro ⟨h1, _⟩
          simp at h1

/-- On an unseen candidate, `consider` always returns a best whose key is
either the entry's own or one that the entry does not beat. -/
theorem consider_unseen_spec {posted : List (List Char)} {f : List Char}
    {b : Option Candidate} {e : FeedEntry}
    (hu : IsUnseenCand posted (e, f) = true) :
    ∃ c', consider posted f b e = some c' ∧
      (keyOfCand c' = keyOfPair (e, f) ∨
        keyGt (keyOfPair (e, f)) (keyOfCand c') = false) := by
  cases hl : e.link with
  | none => rw [unseenCand_link_none hl] at hu; cases hu
  | some lk =>
    rw [unseenCand_link_some hl, Bool.not_eq_true'] at hu
    cases b with
    | none =>
      rw [consider_link_some_none hl, if_neg (by simp [hu])]
      refine ⟨_, rfl, Or.inl ?_⟩
      simp [keyOfCand, keyOfPair]
    | some b0 =>
      rw [consider_link_some_some hl, if_neg (by simp [hu])]
      by_cases hg : keyGt (orEpochZero e.published, entryTitle e)
          (orEpochZero b0.published, b0.title) = true
      · rw [if_pos hg]
        refine ⟨_, rfl, Or.inl ?_⟩
        simp [keyOfCand, keyOfPair]
      · rw [if_neg hg]
        refine ⟨b0, rfl, Or.inr ?_⟩
        rw [Bool.eq_false_iff]
        intro hgt
        apply hg
        simp only [keyOfPair, keyOfCand] at hgt
        exact hgt

/-- `consider` never discards an existing best for a worse one. -/
theorem consider_dominates_prev {posted : List (List Char)} {f : List Char}
    {e : FeedEntry} (c0 : Candidate) :
    ∃ c'', consider posted f (some c0) e = some c'' ∧
      keyGt (keyOfCand c0) (keyOfCand c'') = false := by
  cases hl : e.link with
  | none => exact ⟨c0, consider_link_none hl, keyGt_irrefl _⟩
  | some lk =>
    rw [consider_link_some_some hl]
    by_cases hs : is_seen posted (normalize_url lk) = true
    · rw [if_pos hs]
      exact ⟨c0, rfl, keyGt_irrefl _⟩
    · rw [if_neg hs]
      by_cases hg : keyGt (orEpochZero e.published, entryTitle e)
          (orEpochZero c0.published, c0.title) = true
      · rw [if_pos hg]
        refine ⟨_, rfl, ?_⟩
        apply keyGt_asymm
        simp only [keyOfCand]
        exact hg
      · rw [if_neg hg]
        exact ⟨c0, rfl, keyGt_irrefl _⟩

/-- What `consider` can return: the previous best, or the entry itself. -/
theorem consider_some_origin {posted : List (List Char)} {f : List Char}
    {b : Option Candidate} {e : FeedEntry} {c : Candidate}
    (h : consider posted f b e = some c) :
    b = some c ∨ (IsUnseenCand posted (e, f) = true ∧ c = candOfPair (e, f)) := by
  cases hl : e.link with
  | none => rw [consider_link_none hl] at h; exact Or.inl h
  | some lk =>
    by_cases hs : is_seen posted (normalize_url lk) = true
    · cases b with
      | none =>
        rw [consider_link_some_none hl, if_pos hs] at h
        cases h
      | some b0 =>
        rw [consider_link_some_some hl, if_pos hs] at h
        exact Or.inl h
    · have hu : IsUnseenCand posted (e, f) = true := by
        rw [unseenCand_link_some hl, Bool.not_eq_true']
        rw [Bool.not_eq_true] at hs
        exact hs
      have hcand : candOfPair (e, f) =
          ⟨e.published, entryTitle e, normalize_url lk, f⟩ := by
        unfold candOfPair
        simp [hl]
      cases b with
      | none =>
        rw [consider_link_some_none hl, if_neg hs] at h
        cases h
        exact Or.inr ⟨hu, hcand.symm⟩
      | some b0 =>
        rw [consider_link_some_some hl, if_neg hs] at h
        by_cases hg : keyGt (orEpochZero e.published, entryTitle e)
            (orEpochZero b0.published, b0.title) = true
        · rw [if_pos hg] at h
          cases h
          exact Or.inr ⟨hu, hcand.symm⟩
        · rw [if_neg hg] at h
          exact Or.inl h

/-- The nested feed/entry folds of `pick_newest_unseen` equal one fold over
the flattened pool. -/
theorem pick_eq_foldl_pool (fetch : List Char → List FeedEntry) (cfg : ClientCfg) :
    pick_newest_unseen fetch cfg =
      (poolOf fetch cfg).foldl
        (fun acc p => consider cfg.posted_urls p.2 acc p.1) none := by
  unfold pick_newest_unseen poolOf
  generalize (none : Option Candidate) = b
  induction cfg.feeds generalizing b with
  | nil => rfl
  | cons f fs ih =>
    simp only [List.map_cons, List.flatten_cons, List.foldl_cons, List.foldl_append]
    rw [ih]
    congr 1
    rw [List.foldl_map]

theorem consider_foldl_none_iff (posted : List (List Char)) :
    ∀ (pool : List (FeedEntry × List Char)) (b : Option Candidate),
      pool.foldl (fun acc p => consider posted p.2 acc p.1) b = none ↔
        (b = none ∧ ∀ p ∈ pool, IsUnseenCand posted p = false) := by
  intro pool
  induction pool with
  | nil => intro b; simp
  | cons p pool ih =>
    intro b
    rw [List.foldl_cons, ih]
    constructor
    · rintro ⟨hb, hall⟩
      obtain ⟨hb0, hp⟩ := consider_none_iff.mp hb
      refine ⟨hb0, ?_⟩
      intro q hq
      rcases List.mem_cons.mp hq with rfl | hq'
      · exact hp
      · exact hall q hq'
    · rintro ⟨hb0, hall⟩
      refine ⟨?_, fun q hq => hall q (List.mem_cons_of_mem _ hq)⟩
      rw [consider_none_iff]
      exact ⟨hb0, hall p (List.mem_cons_self _ _)⟩

theorem consider_foldl_some_spec (posted : List (List Char)) :
    ∀ (pool : List (FeedEntry × List Char)) (b : Option Candidate) (c : Candidate),
      pool.foldl (fun acc p => consider posted p.2 acc p.1) b = some c →
        ((b = some c ∨ ∃ p ∈ pool, IsUnseenCand posted p = true ∧ c = candOfPair p) ∧
         (∀ p ∈ pool, IsUnseenCand posted p = true →
            keyGt (keyOfPair p) (keyOfCand c) = false) ∧
         (∀ c0, b = some c0 → keyGt (keyOfCand c0) (keyOfCand c) = false)) := by
  intro pool
  induction pool with
  | nil =>
    intro b c h
    simp only [List.foldl_nil] at h
    refine ⟨Or.inl h, by simp, ?_⟩
    intro c0 hb
    rw [hb] at h
    cases h
    exact keyGt_irrefl _
  | cons p pool ih =>
    intro b c h
    rw [List.foldl_cons] at h
    obtain ⟨horig, hpool, hdom⟩ := ih (consider posted p.2 b p.1) c h
    have hp_eta : (p.1, p.2) = p := rfl
    refine ⟨?_, ?_, ?_⟩
    · rcases horig with hb' | ⟨q, hq, hu, hc⟩
      · rcases consider_some_origin hb' with hb0 | ⟨hu, hc⟩
        · exact Or.inl hb0
        · exact Or.inr ⟨p, List.mem_cons_self _ _, by rwa [hp_eta] at hu, by rwa [hp_eta] at hc⟩
      · exact Or.inr ⟨q, List.mem_cons_of_mem _ hq, hu, hc⟩
    · intro q hq hu
      rcases List.mem_cons.mp hq with rfl | hq'
      · obtain ⟨c', hc', hkey⟩ := consider_unseen_spec (b := b) (by rwa [hp_eta])
        have hdomc' := hdom c' (by rw [← hc'])
        rcases hkey with hkeq | hkgt
        · rw [hp_eta] at hkeq
          rw [← hkeq]
          exact hdomc'
        · rw [hp_eta] at hkgt
          exact keyGt_false_trans hkgt hdomc'
      · exact hpool q hq' hu
    · intro c0 hb
      obtain ⟨c'', hc'', hkey⟩ :=
        @consider_dominates_prev posted p.2 p.1 c0
      have hc3 : consider posted p.2 b p.1 = some c'' := by
        rw [hb]
        exact hc''
      exact keyGt_false_trans hkey (hdom c'' hc3)

/-- C7: over the pool of fetched entries (the first `fetch_entries_per_feed`
of each configured source), `pick_newest_unseen` returns `none` exactly when
no entry has an unseen link (all seen, or all sources empty); otherwise it
returns an entry of the pool with an unseen link that no other unseen entry
beats under the composite key `(published or epoch-zero, title)`; an entry
with a real 9-field timestamp always outranks one without, and at equal
times the comparison is exactly the title comparison. -/
theorem pick_newest_unseen_spec (fetch : List Char → List FeedEntry) (cfg : ClientCfg) :
    (pick_newest_unseen fetch cfg = none ↔
      ∀ p ∈ poolOf fetch cfg, IsUnseenCand cfg.posted_urls p = false) ∧
    (∀ c, pick_newest_unseen fetch cfg = some c →
      (∃ p ∈ poolOf fetch cfg, IsUnseenCand cfg.posted_urls p = true ∧ c = candOfPair p) ∧
      ∀ p ∈ poolOf fetch cfg, IsUnseenCand cfg.posted_urls p = true →
        keyGt (keyOfPair p) (keyOfCand c) = false) ∧
    (∀ (t : List Int) (s1 s2 : List Char), 2 ≤ t.length → 0 ≤ t.headI →
      keyGt (orEpochZero (some t), s1) (orEpochZero none, s2) = true) ∧
    (∀ (t : List Int) (s1 s2 : List Char),
      keyGt (t, s1) (t, s2) = pyStrLt s2 s1) := by
  refine ⟨?_, ?_, ?_, ?_⟩
  · rw [pick_eq_foldl_pool, consider_foldl_none_iff]
    simp
  · intro c hc
    rw [pick_eq_foldl_pool] at hc
    obtain ⟨horig, hmax, _⟩ := consider_foldl_some_spec cfg.posted_urls _ none c hc
    rcases horig with hnone | hex
    · cases hnone
    · exact ⟨hex, hmax⟩
  · intro t s1 s2 hlen hhead
    cases t with
    | nil => simp at hlen
    | cons h0 t' =>
      apply keyGt_iff.mpr
      left
      have ht' : orEpochZero (some (h0 :: t')) = h0 :: t' := by
        unfold orEpochZero
        simp
      rw [ht']
      show pyListLt [0] (h0 :: t') = true
      apply pyListLt_cons_iff.mpr
      simp at hhead
      rcases lt_or_eq_of_le hhead with hlt | heq
      · exact Or.inl hlt
      · right
        refine ⟨heq, ?_⟩
        cases t' with
        | nil => simp at hlen
        | cons a as => rfl
  · intro t s1 s2
    unfold keyGt
    simp [pyListLt_irrefl]

theorem pick_newest_unseen_spec_witness :
    ∃ c, pick_newest_unseen
        (fun _ => [⟨some "http://x/1".data, some "A".data,
                     some [2024, 1, 1, 0, 0, 0, 0, 1, 0]⟩,
                   ⟨some "http://x/2".data, some "B".data,
                     some [2024, 1, 2, 0, 0, 0, 1, 2, 0]⟩])
        { baseCfg with feeds := ["http://feed".data] } = some c ∧
      c.title = "B".data ∧
      (∃ p ∈ poolOf
          (fun _ => [⟨some "http://x/1".data, some "A".data,
                       some [2024, 1, 1, 0, 0, 0, 0, 1, 0]⟩,
                     ⟨some "http://x/2".data, some "B".data,
                       some [2024, 1, 2, 0, 0, 0, 1, 2, 0]⟩])
          { baseCfg with feeds := ["http://feed".data] },
        IsUnseenCand [] p = true ∧ c = candOfPair p) := by
  have he : pick_newest_unseen
      (fun _ => [⟨some "http://x/1".data, some "A".data,
                   some [2024, 1, 1, 0, 0, 0, 0, 1, 0]⟩,
                 ⟨some "http://x/2".data, some "B".data,
                   some [2024, 1, 2, 0, 0, 0, 1, 2, 0]⟩])
      { baseCfg with feeds := ["http://feed".data] } =
      some ⟨some [2024, 1, 2, 0, 0, 0, 1, 2, 0], "B".data,
            "http://x/2".data, "http://feed".data⟩ := by decide
  have hspec := (pick_newest_unseen_spec
    (fun _ => [⟨some "http://x/1".data, some "A".data,
                 some [2024, 1, 1, 0, 0, 0, 0, 1, 0]⟩,
               ⟨some "http://x/2".data, some "B".data,
                 some [2024, 1, 2, 0, 0, 0, 1, 2, 0]⟩])
    { baseCfg with feeds := ["http://feed".data] }).2.1 _ he
  exact ⟨_, he, rfl, hspec.1⟩

/-! ## C6: the output sanitizer

Step equations for the well-founded scanners, then the central invariant:
the cleaned text contains no inline `http(s)://` URL, so the appended
canonical link is the only one in the output. -/

theorem stripUrls_nil : stripUrls [] = [] := by
  rw [stripUrls]

theorem stripUrls_cons_some {c : Char} {cs rest : List Char}
    (h : urlMatchAt (c :: cs) = some rest) :
    stripUrls (c :: cs) = stripUrls rest := by
  rw [stripUrls]
  split
  · rename_i r hr
    rw [h] at hr
    cases hr
    rfl
  · rename_i hr
    rw [h] at hr
    cases hr

theorem stripUrls_cons_none {c : Char} {cs : List Char}
    (h : urlMatchAt (c :: cs) = none) :
    stripUrls (c :: cs) = c :: stripUrls cs := by
  rw [stripUrls]
  split
  · rename_i r hr
    rw [h] at hr
    cases hr
  · rfl

theorem lineScan_nil {M : List Char → Option (List Char)} {hM : GoodMatcher M}
    {ls : Bool} : lineScan M hM [] ls = [] := by
  rw [lineScan]

theorem lineScan_cons_false {M : List Char → Option (List Char)} {hM : GoodMatcher M}
    {c : Char} {cs : List Char} :
    lineScan M hM (c :: cs) false = c :: lineScan M hM cs (c == '\n') := by
  rw [lineScan]
  rfl

theorem lineScan_cons_true_none {M : List Char → Option (List Char)} {hM : GoodMatcher M}
    {c : Char} {cs : List Char} (h : M (c :: cs) = none) :
    lineScan M hM (c :: cs) true = c :: lineScan M hM cs (c == '\n') := by
  rw [lineScan, if_pos (show (true = true) from rfl)]
  split
  · rename_i r hr
    rw [h] at hr
    cases hr
  · rfl

theorem lineScan_cons_true_some {M : List Char → Option (List Char)} {hM : GoodMatcher M}
    {c : Char} {cs rest : List Char} (h : M (c :: cs) = some rest) :
    lineScan M hM (c :: cs) true =
      lineScan M hM rest
        (((c :: cs).take ((c :: cs).length - rest.length)).getLast? == some '\n') := by
  rw [lineScan, if_pos (show (true = true) from rfl)]
  split
  · rename_i r hr
    rw [h] at hr
    cases hr
    rfl
  · rename_i hr
    rw [h] at hr
    cases hr

theorem collapseNl_nil : collapseNl [] = [] := by
  rw [collapseNl]

theorem collapseNl_cons_nl {cs : List Char} :
    collapseNl ('\n' :: cs) =
      List.replicate (min (('\n' :: cs).takeWhile (fun d => d = '\n')).length 2) '\n' ++
        collapseNl (('\n' :: cs).dropWhile (fun d => d = '\n')) := by
  rw [collapseNl]
  rw [dif_pos rfl]

theorem collapseNl_cons_other {c : Char} {cs : List Char} (h : ¬c = '\n') :
    collapseNl (c :: cs) = c :: collapseNl cs := by
  rw [collapseNl]
  rw [dif_neg h]

theorem dropWhile_head_false {p : Char → Bool} :
    ∀ {l : List Char} {c : Char} {cs : List Char},
      l.dropWhile p = c :: cs → p c = false := by
  intro l
  induction l with
  | nil => intro c cs h; cases h
  | cons a as ih =>
    intro c cs h
    rw [List.dropWhile_cons] at h
    split at h
    · exact ih h
    · cases h
      rename_i hpa
      simpa using hpa

/-- After a URL match the remaining text starts with whitespace (or ends). -/
theorem urlMatchAt_rest_space {l rest : List Char} (h : urlMatchAt l = some rest) :
    rest = [] ∨ ∃ d ds, rest = d :: ds ∧ isPySpace d = true := by
  unfold urlMatchAt at h
  split at h
  · cases h
    cases hr : (l.drop 7).dropWhile (fun d => !isPySpace d) with
    | nil => exact Or.inl rfl
    | cons d ds =>
      refine Or.inr ⟨d, ds, rfl, ?_⟩
      have := dropWhile_head_false hr
      simpa using this
  · split at h
    · cases h
      cases hr : (l.drop 8).dropWhile (fun d => !isPySpace d) with
      | nil => exact Or.inl rfl
      | cons d ds =>
        refine Or.inr ⟨d, ds, rfl, ?_⟩
        have := dropWhile_head_false hr
        simpa using this
    · cases h

/-- `https?://\S+` does match at the head of `http://x…`. -/
theorem urlMatchAt_http_ne {x : Char} {r : List Char} (hx : isPySpace x = false) :
    urlMatchAt ("http://".data ++ x :: r) ≠ none := by
  unfold urlMatchAt
  have h7 : ("http://".data ++ x :: r).take 7 = "http://".data := rfl
  have hd : ("http://".data ++ x :: r).drop 7 = x :: r := rfl
  rw [if_pos ⟨h7, by rw [hd]; simpa using hx⟩]
  simp

/-- `https?://\S+` does match at the head of `https://x…`. -/
theorem urlMatchAt_https_ne {x : Char} {r : List Char} (hx : isPySpace x = false) :
    urlMatchAt ("https://".data ++ x :: r) ≠ none := by
  unfold urlMatchAt
  have h7 : ("https://".data ++ x :: r).take 7 = "https:/".data := rfl
  have h8 : ("https://".data ++ x :: r).take 8 = "https://".data := rfl
  have hd : ("https://".data ++ x :: r).drop 8 = x :: r := rfl
  rw [if_neg (by rw [h7]; rintro ⟨h1, -⟩; exact absurd h1 (by decide))]
  rw [if_pos ⟨h8, by rw [hd]; simpa using hx⟩]
  simp

/-- If the output of `stripUrls` begins with a whitespace-free word, the
input began with that word too. -/
theorem stripUrls_prepend_track :
    ∀ (n : Nat) (l : List Char), l.length ≤ n →
      ∀ (w r' : List Char), (∀ c ∈ w, isPySpace c = false) →
        stripUrls l = w ++ r' → ∃ r, l = w ++ r := by
  intro n
  induction n with
  | zero =>
    intro l hl w r' hw h
    have hnil : l = [] := List.eq_nil_of_length_eq_zero (by omega)
    subst hnil
    rw [stripUrls_nil] at h
    cases w with
    | nil => exact ⟨[], rfl⟩
    | cons a as => simp at h
  | succ m ih =>
    intro l hl w r' hw h
    cases l with
    | nil =>
      rw [stripUrls_nil] at h
      cases w with
      | nil => exact ⟨[], rfl⟩
      | cons a as => simp at h
    | cons c cs =>
      cases hm : urlMatchAt (c :: cs) with
      | some rest =>
        rw [stripUrls_cons_some hm] at h
        cases w with
        | nil => exact ⟨c :: cs, rfl⟩
        | cons w0 w' =>
          have hlen : rest.length ≤ m := by
            have hlt := urlMatchAt_length_lt _ _ hm
            simp only [List.length_cons] at hlt
            simp at hl
            omega
          obtain ⟨r0, hr0⟩ := ih rest hlen (w0 :: w') r' hw h
          rcases urlMatchAt_rest_space hm with hnil | ⟨d, ds, hd, hsp⟩
          · rw [hnil] at hr0
            simp at hr0
          · rw [hd] at hr0
            injection hr0 with h1 _
            rw [h1] at hsp
            rw [hw w0 (by simp)] at hsp
            cases hsp
      | none =>
        rw [stripUrls_cons_none hm] at h
        cases w with
        | nil => exact ⟨c :: cs, rfl⟩
        | cons w0 w' =>
          injection h with h1 h2
          obtain ⟨r, hr⟩ := ih cs (by simp at hl; omega) w' r'
            (fun d hd => hw d (by simp [hd])) h2
          refine ⟨r, ?_⟩
          rw [h1, hr]
          rfl

/-- The output of `stripUrls` contains no inline `http(s)://` URL: no
occurrence of a scheme followed by a non-space character. -/
theorem stripUrls_no_url :
    ∀ (n : Nat) (l : List Char), l.length ≤ n →
      ∀ (s : List Char) (x : Char),
        s = "http://".data ∨ s = "https://".data → isPySpace x = false →
        ¬ ((s ++ [x]) <:+: stripUrls l) := by
  intro n
  induction n with
  | zero =>
    intro l hl s x hs hx hocc
    have hnil : l = [] := List.eq_nil_of_length_eq_zero (by omega)
    subst hnil
    rw [stripUrls_nil] at hocc
    have := hocc.sublist
    rw [List.sublist_nil] at this
    rcases hs with rfl | rfl <;> simp at this
  | succ m ih =>
    intro l hl s x hs hx hocc
    cases l with
    | nil =>
      rw [stripUrls_nil] at hocc
      have := hocc.sublist
      rw [List.sublist_nil] at this
      rcases hs with rfl | rfl <;> simp at this
    | cons c cs =>
      cases hm : urlMatchAt (c :: cs) with
      | some rest =>
        rw [stripUrls_cons_some hm] at hocc
        have hlen : rest.length ≤ m := by
          have hlt := urlMatchAt_length_lt _ _ hm
          simp only [List.length_cons] at hlt
          simp at hl
          omega
        exact ih rest hlen s x hs hx hocc
      | none =>
        rw [stripUrls_cons_none hm] at hocc
        rcases List.infix_cons_iff.mp hocc with hpre | htail
        · obtain ⟨t, ht⟩ := hpre
          have hsw : ∀ d ∈ s, isPySpace d = false := by
            rcases hs with rfl | rfl <;> decide
          cases hs with
          | inl hs1 =>
            subst hs1
            rw [List.append_assoc] at ht
            injection ht with h1 h2
            obtain ⟨r, hr⟩ := stripUrls_prepend_track m cs (by simp at hl; omega)
              ("ttp://".data ++ [x]) t
              (by
                intro d hd
                rcases List.mem_append.mp hd with hd' | hd'
                · have hall : ∀ d ∈ "ttp://".data, isPySpace d = false := by decide
                  exact hall d hd'
                · rw [List.mem_singleton.mp hd']
                  exact hx)
              (by rw [← h2]; simp)
            have hl2 : (c :: cs) = "http://".data ++ x :: r := by
              rw [← h1, hr]
              rfl
            rw [hl2] at hm
            exact urlMatchAt_http_ne hx hm
          | inr hs1 =>
            subst hs1
            rw [List.append_assoc] at ht
            injection ht with h1 h2
            obtain ⟨r, hr⟩ := stripUrls_prepend_track m cs (by simp at hl; omega)
              ("ttps://".data ++ [x]) t
              (by
                intro d hd
                rcases List.mem_append.mp hd with hd' | hd'
                · have hall : ∀ d ∈ "ttps://".data, isPySpace d = false := by decide
                  exact hall d hd'
                · rw [List.mem_singleton.mp hd']
                  exact hx)
              (by rw [← h2]; simp)
            have hl2 : (c :: cs) = "https://".data ++ x :: r := by
              rw [← h1, hr]
              rfl
            rw [hl2] at hm
            exact urlMatchAt_https_ne hx hm
        · exact ih cs (by simp at hl; omega) s x hs hx htail

/-- A head other than `h` never starts a URL match. -/
theorem urlMatchAt_none_of_head {c : Char} {cs : List Char} (h : ¬c = 'h') :
    urlMatchAt (c :: cs) = none := by
  have h7 : ¬((c :: cs).take 7 = "http://".data ∧
      isPySpace (((c :: cs).drop 7).headD ' ') = false) := by
    rintro ⟨h1, -⟩
    have hp : "http://".data <+: c :: cs := List.prefix_iff_eq_take.mpr h1.symm
    rw [show "http://".data = 'h' :: "ttp://".data from rfl] at hp
    exact h (List.cons_prefix_cons.mp hp).1.symm
  have h8 : ¬((c :: cs).take 8 = "https://".data ∧
      isPySpace (((c :: cs).drop 8).headD ' ') = false) := by
    rintro ⟨h1, -⟩
    have hp : "https://".data <+: c :: cs := List.prefix_iff_eq_take.mpr h1.symm
    rw [show "https://".data = 'h' :: "ttps://".data from rfl] at hp
    exact h (List.cons_prefix_cons.mp hp).1.symm
  unfold urlMatchAt
  rw [if_neg h7, if_neg h8]

/-- `dropWhile` is the identity when no character satisfies the predicate. -/
theorem dropWhile_id {p : Char → Bool} {l : List Char}
    (h : ∀ c ∈ l, p c = false) : l.dropWhile p = l := by
  cases l with
  | nil => rfl
  | cons c cs =>
    rw [List.dropWhile_cons, if_neg]
    simp [h c (List.mem_cons_self c cs)]

theorem pyStrip_id {l : List Char} (h : ∀ c ∈ l, isPySpace c = false) :
    pyStrip l = l := by
  unfold pyStrip dropTrailing
  rw [dropWhile_id h, dropWhile_id (fun c hc => h c (List.mem_reverse.mp hc)),
    List.reverse_reverse]

theorem stripUrls_id : ∀ (l : List Char), (∀ c ∈ l, ¬c = 'h') →
    stripUrls l = l := by
  intro l
  induction l with
  | nil => intro _; exact stripUrls_nil
  | cons c cs ih =>
    intro h
    rw [stripUrls_cons_none (urlMatchAt_none_of_head (h c (List.mem_cons_self c cs)))]
    rw [ih (fun d hd => h d (List.mem_cons_of_mem c hd))]

theorem lineScan_id_false {M : List Char → Option (List Char)} {hM : GoodMatcher M} :
    ∀ (l : List Char), (∀ c ∈ l, ¬c = '\n') → lineScan M hM l false = l := by
  intro l
  induction l with
  | nil => intro _; exact lineScan_nil
  | cons c cs ih =>
    intro h
    rw [lineScan_cons_false]
    have hc : (c == '\n') = false :=
      beq_eq_false_iff_ne.mpr (h c (List.mem_cons_self c cs))
    rw [hc, ih (fun d hd => h d (List.mem_cons_of_mem c hd))]

theorem lineScan_id_true {M : List Char → Option (List Char)} {hM : GoodMatcher M}
    {l : List Char} (hnone : M l = none) (h : ∀ c ∈ l, ¬c = '\n') :
    lineScan M hM l true = l := by
  cases l with
  | nil => exact lineScan_nil
  | cons c cs =>
    rw [lineScan_cons_true_none hnone]
    have hc : (c == '\n') = false :=
      beq_eq_false_iff_ne.mpr (h c (List.mem_cons_self c cs))
    rw [hc, lineScan_id_false cs (fun d hd => h d (List.mem_cons_of_mem c hd))]

theorem collapseNl_id : ∀ (l : List Char), (∀ c ∈ l, ¬c = '\n') →
    collapseNl l = l := by
  intro l
  induction l with
  | nil => intro _; exact collapseNl_nil
  | cons c cs ih =>
    intro h
    rw [collapseNl_cons_other (h c (List.mem_cons_self c cs))]
    rw [ih (fun d hd => h d (List.mem_cons_of_mem c hd))]

/-- When the scanner's flag is off, an output prefix free of newlines is a
prefix of the input. -/
theorem lineScan_prepend_false {M : List Char → Option (List Char)}
    {hM : GoodMatcher M} :
    ∀ (l w r' : List Char), (∀ c ∈ w, ¬c = '\n') →
      lineScan M hM l false = w ++ r' → ∃ r, l = w ++ r := by
  intro l
  induction l with
  | nil =>
    intro w r' _ h
    rw [lineScan_nil] at h
    rcases List.append_eq_nil.mp h.symm with ⟨rfl, -⟩
    exact ⟨[], rfl⟩
  | cons c cs ih =>
    intro w r' hw h
    rw [lineScan_cons_false] at h
    cases w with
    | nil => exact ⟨c :: cs, rfl⟩
    | cons w0 w' =>
      injection h with h1 h2
      have hc : (c == '\n') = false := by
        rw [h1]
        exact beq_eq_false_iff_ne.mpr (hw w0 (List.mem_cons_self w0 w'))
      rw [hc] at h2
      obtain ⟨r, hr⟩ := ih w' r' (fun d hd => hw d (List.mem_cons_of_mem w0 hd)) h2
      refine ⟨r, ?_⟩
      rw [h1, hr]
      rfl

/-- A nonempty newline-free infix of the scanner's output is an infix of
its input: drops only happen at line starts, so every join in the output
sits right after a newline. -/
theorem lineScan_infix_track {M : List Char → Option (List Char)}
    {hM : GoodMatcher M} :
    ∀ (n : Nat) (l : List Char), l.length ≤ n → ∀ (ls : Bool) (w : List Char),
      w ≠ [] → (∀ c ∈ w, ¬c = '\n') →
      w <:+: lineScan M hM l ls → w <:+: l := by
  intro n
  induction n with
  | zero =>
    intro l hl ls w hne hw hocc
    have hnil : l = [] := List.eq_nil_of_length_eq_zero (by omega)
    subst hnil
    rw [lineScan_nil] at hocc
    exact absurd (List.infix_nil.mp hocc) hne
  | succ m ih =>
    intro l hl ls w hne hw hocc
    cases l with
    | nil =>
      rw [lineScan_nil] at hocc
      exact absurd (List.infix_nil.mp hocc) hne
    | cons c cs =>
      have hstep : ∀ (fl : Bool),
          w <:+: c :: lineScan M hM cs (c == '\n') → w <:+: c :: cs := by
        intro fl hocc2
        rcases List.infix_cons_iff.mp hocc2 with hpre | htail
        · cases w with
          | nil => exact absurd rfl hne
          | cons w0 w' =>
            obtain ⟨hw0, hp⟩ := List.cons_prefix_cons.mp hpre
            obtain ⟨t, ht⟩ := hp
            have hc : (c == '\n') = false := by
              rw [← hw0]
              exact beq_eq_false_iff_ne.mpr (hw w0 (List.mem_cons_self w0 w'))
            rw [hc] at ht
            obtain ⟨r, hr⟩ := lineScan_prepend_false cs w' t
              (fun d hd => hw d (List.mem_cons_of_mem w0 hd)) ht.symm
            have : (w0 :: w') <+: c :: cs := by
              rw [hr, hw0]
              exact ⟨r, rfl⟩
            exact this.isInfix
        · have : w <:+: cs := ih cs (by simp at hl; omega) (c == '\n') w hne hw htail
          exact List.infix_cons this
      cases ls with
      | false =>
        rw [lineScan_cons_false] at hocc
        exact hstep false hocc
      | true =>
        cases hm : M (c :: cs) with
        | none =>
          rw [lineScan_cons_true_none hm] at hocc
          exact hstep true hocc
        | some rest =>
          rw [lineScan_cons_true_some hm] at hocc
          obtain ⟨hlen, hsuf⟩ := hM _ _ hm
          have hrest : w <:+: rest := by
            refine ih rest ?_ _ w hne hw hocc
            simp only [List.length_cons] at hlen hl
            omega
          exact hrest.trans hsuf.isInfix

/-- A nonempty newline-free word cannot start inside a block of inserted
newlines. -/
theorem infix_drop_replicate_nl :
    ∀ (m : Nat) (b w : List Char), w ≠ [] → (∀ c ∈ w, ¬c = '\n') →
      w <:+: (List.replicate m '\n' ++ b) → w <:+: b := by
  intro m
  induction m with
  | zero =>
    intro b w _ _ h
    simpa using h
  | succ k ih =>
    intro b w hne hw h
    rw [List.replicate_succ, List.cons_append] at h
    rcases List.infix_cons_iff.mp h with hpre | htail
    · cases w with
      | nil => exact absurd rfl hne
      | cons w0 w' =>
        obtain ⟨hw0, -⟩ := List.cons_prefix_cons.mp hpre
        exact absurd hw0 (hw w0 (List.mem_cons_self w0 w'))
    · exact ih b w hne hw htail

/-- A newline-free prefix of `collapseNl`'s output is a prefix of its
input. -/
theorem collapseNl_prepend :
    ∀ (l w r' : List Char), (∀ c ∈ w, ¬c = '\n') →
      collapseNl l = w ++ r' → ∃ r, l = w ++ r := by
  intro l
  induction l with
  | nil =>
    intro w r' _ h
    rw [collapseNl_nil] at h
    rcases List.append_eq_nil.mp h.symm with ⟨rfl, -⟩
    exact ⟨[], rfl⟩
  | cons c cs ih =>
    intro w r' hw h
    by_cases hc : c = '\n'
    · subst hc
      cases w with
      | nil => exact ⟨'\n' :: cs, rfl⟩
      | cons w0 w' =>
        rw [collapseNl_cons_nl] at h
        have h1 : 1 ≤ (('\n' :: cs).takeWhile (fun d => d = '\n')).length := by
          simp [List.takeWhile_cons]
        obtain ⟨k, hkk⟩ : ∃ k,
            min (('\n' :: cs).takeWhile (fun d => d = '\n')).length 2 = k + 1 :=
          ⟨min (('\n' :: cs).takeWhile (fun d => d = '\n')).length 2 - 1, by omega⟩
        rw [hkk, List.replicate_succ, List.cons_append] at h
        injection h with hh1 _
        exact absurd hh1.symm (hw w0 (List.mem_cons_self w0 w'))
    · rw [collapseNl_cons_other hc] at h
      cases w with
      | nil => exact ⟨c :: cs, rfl⟩
      | cons w0 w' =>
        injection h with h1 h2
        obtain ⟨r, hr⟩ := ih w' r' (fun d hd => hw d (List.mem_cons_of_mem w0 hd)) h2
        refine ⟨r, ?_⟩
        rw [h1, hr]
        rfl

/-- A nonempty newline-free infix of `collapseNl`'s output is an infix of
its input. -/
theorem collapseNl_infix_track :
    ∀ (n : Nat) (l : List Char), l.length ≤ n → ∀ (w : List Char),
      w ≠ [] → (∀ c ∈ w, ¬c = '\n') → w <:+: collapseNl l → w <:+: l := by
  intro n
  induction n with
  | zero =>
    intro l hl w hne _ hocc
    have hnil : l = [] := List.eq_nil_of_length_eq_zero (by omega)
    subst hnil
    rw [collapseNl_nil] at hocc
    exact absurd (List.infix_nil.mp hocc) hne
  | succ m ih =>
    intro l hl w hne hw hocc
    cases l with
    | nil =>
      rw [collapseNl_nil] at hocc
      exact absurd (List.infix_nil.mp hocc) hne
    | cons c cs =>
      by_cases hc : c = '\n'
      · subst hc
        rw [collapseNl_cons_nl] at hocc
        have hocc2 := infix_drop_replicate_nl _ _ w hne hw hocc
        have hdw : ('\n' :: cs).dropWhile (fun d => d = '\n') =
            cs.dropWhile (fun d => d = '\n') := by
          simp [List.dropWhile_cons]
        rw [hdw] at hocc2
        have hsuf : cs.dropWhile (fun d => d = '\n') <:+ cs := List.dropWhile_suffix _
        have hlen : (cs.dropWhile (fun d => d = '\n')).length ≤ m := by
          have := hsuf.length_le
          simp at hl
          omega
        have hcs : w <:+: cs.dropWhile (fun d => d = '\n') := ih _ hlen w hne hw hocc2
        exact List.infix_cons (hcs.trans hsuf.isInfix)
      · rw [collapseNl_cons_other hc] at hocc
        rcases List.infix_cons_iff.mp hocc with hpre | htail
        · cases w with
          | nil => exact absurd rfl hne
          | cons w0 w' =>
            obtain ⟨hw0, hp⟩ := List.cons_prefix_cons.mp hpre
            obtain ⟨t, ht⟩ := hp
            obtain ⟨r, hr⟩ := collapseNl_prepend cs w' t
              (fun d hd => hw d (List.mem_cons_of_mem w0 hd)) ht.symm
            have hwpre : (w0 :: w') <+: c :: cs := by
              rw [hr, hw0]
              exact ⟨r, rfl⟩
            exact hwpre.isInfix
        · exact List.infix_cons (ih cs (by simp at hl; omega) w hne hw htail)

/-- `dropTrailing` keeps a prefix of its input. -/
theorem dropTrailing_prefix_self (p : Char → Bool) (l : List Char) :
    dropTrailing p l <+: l := by
  obtain ⟨t, ht⟩ : l.reverse.dropWhile p <:+ l.reverse := List.dropWhile_suffix p
  refine ⟨t.reverse, ?_⟩
  have h2 := congrArg List.reverse ht
  rw [List.reverse_append, List.reverse_reverse] at h2
  exact h2

theorem pyStrip_infix_self (l : List Char) : pyStrip l <:+: l :=
  ((dropTrailing_prefix_self isPySpace _).isInfix).trans
    (List.dropWhile_suffix isPySpace).isInfix

theorem pyRstrip_prefix_self (l : List Char) : pyRstrip l <+: l :=
  dropTrailing_prefix_self isPySpace l

/-- The cleaned body never contains an inline `http(s)://` URL: `stripUrls`
removes them and no later pipeline stage can create one. -/
theorem cleanBody_no_url (text s : List Char) (x : Char)
    (hs : s = "http://".data ∨ s = "https://".data) (hx : isPySpace x = false) :
    ¬ (s ++ [x]) <:+: cleanBody text := by
  intro hocc
  have hne : s ++ [x] ≠ [] := by
    rcases hs with rfl | rfl <;> simp
  have hnl : ∀ c ∈ s ++ [x], ¬c = '\n' := by
    intro c hcm
    rcases List.mem_append.mp hcm with hcs | hcx
    · rcases hs with rfl | rfl
      · have hh : ∀ c ∈ "http://".data, ¬c = '\n' := by decide
        exact hh c hcs
      · have hh : ∀ c ∈ "https://".data, ¬c = '\n' := by decide
        exact hh c hcs
    · rw [List.mem_singleton.mp hcx]
      intro hxe
      rw [hxe] at hx
      exact absurd hx (by decide)
  unfold cleanBody stripBracket stripLabel stripEnum at hocc
  have h1 := hocc.trans (pyStrip_infix_self _)
  have h2 := collapseNl_infix_track _ _ le_rfl _ hne hnl h1
  have h3 := lineScan_infix_track _ _ le_rfl _ _ hne hnl h2
  have h4 := lineScan_infix_track _ _ le_rfl _ _ hne hnl h3
  have h5 := h4.trans (pyStrip_infix_self _)
  have h6 := lineScan_infix_track _ _ le_rfl _ _ hne hnl h5
  have h7 := h6.trans (pyStrip_infix_self _)
  exact stripUrls_no_url _ _ le_rfl s x hs hx h7

theorem countOccs_short : ∀ {pat l : List Char}, l.length < pat.length →
    countOccs pat l = 0 := by
  intro pat l
  induction l with
  | nil =>
    intro h
    cases pat with
    | nil => simp at h
    | cons p ps => rfl
  | cons c cs ih =>
    intro h
    have hne : ¬((c :: cs).take pat.length = pat) := by
      intro heq
      have hlen := congrArg List.length heq
      simp [List.length_take] at hlen h
      omega
    rw [countOccs, if_neg hne, ih (by simp at h; omega)]

theorem countOccs_self {pat : List Char} (h : pat ≠ []) :
    countOccs pat pat = 1 := by
  cases pat with
  | nil => exact absurd rfl h
  | cons c cs =>
    have h1 : (c :: cs).take (c :: cs).length = c :: cs := List.take_length _
    rw [countOccs, if_pos h1, countOccs_short (show cs.length < (c :: cs).length by simp)]

theorem countOccs_head_not_mem : ∀ {c : Char} {pat' l : List Char}, c ∉ l →
    countOccs (c :: pat') l = 0 := by
  intro c pat' l
  induction l with
  | nil => intro _; rfl
  | cons a as ih =>
    intro h
    rw [List.mem_cons, not_or] at h
    obtain ⟨h1, h2⟩ := h
    have hne : ¬((a :: as).take (c :: pat').length = c :: pat') := by
      intro heq
      rw [List.length_cons, List.take_succ_cons] at heq
      injection heq with ha _
      exact h1 ha.symm
    rw [countOccs, if_neg hne, ih h2]

/-- If no occurrence of `pat` starts inside `u`, occurrences in `u ++ v`
are exactly the occurrences in `v`. -/
theorem countOccs_append_no_start :
    ∀ (u v pat : List Char),
      (∀ t, t <:+ u → t ≠ [] → ¬ pat <+: (t ++ v)) →
      countOccs pat (u ++ v) = countOccs pat v := by
  intro u
  induction u with
  | nil => intro v pat _; rw [List.nil_append]
  | cons c cs ih =>
    intro v pat H
    rw [List.cons_append, countOccs]
    have hne : ¬((c :: (cs ++ v)).take pat.length = pat) := by
      intro heq
      exact H (c :: cs) (List.suffix_rfl) (by simp)
        (List.prefix_iff_eq_take.mpr heq.symm)
    rw [if_neg hne, ih v pat (fun t ht htne => H t (ht.trans (List.suffix_cons c cs)) htne)]
    omega

/-- C6 (amended): `sanitize_llm_post` returns at most 900 characters, the
cleaned body never contains an inline `http(s)://` URL (the backend's echoed
URLs are stripped and no stage reintroduces one), and — provided the cleaned
body plus the 4-character separator plus the link fit in 900 characters —
the output is exactly the cleaned body (or the placeholder when the body is
empty) followed by `"\n\n🔗 "` and the canonical link, which therefore
occurs exactly once and at the end.  Without the fit hypothesis the final
claim fails: truncation to 900 happens after the link is appended and can
cut the link off. -/
theorem sanitize_llm_post_spec (text link s : List Char) (x : Char) (rest : List Char)
    (hs : s = "http://".data ∨ s = "https://".data)
    (hlink : link = s ++ x :: rest)
    (hchars : ∀ c ∈ link, isPySpace c = false)
    (hfit : (pyRstrip (if cleanBody text = [] then placeholderText
        else cleanBody text)).length + 4 + link.length ≤ 900) :
    (sanitize_llm_post text link).length ≤ 900 ∧
    ¬ (s ++ [x]) <:+: cleanBody text ∧
    sanitize_llm_post text link =
      pyRstrip (if cleanBody text = [] then placeholderText else cleanBody text) ++
        "\n\n🔗 ".data ++ link ∧
    countOccs link (sanitize_llm_post text link) = 1 ∧
    link <:+ sanitize_llm_post text link := by
  have hx : isPySpace x = false :=
    hchars x (by rw [hlink]; exact List.mem_append_right _ (List.mem_cons_self x rest))
  obtain ⟨s', hs'⟩ : ∃ s', s = 'h' :: s' := by
    rcases hs with rfl | rfl
    · exact ⟨"ttp://".data, rfl⟩
    · exact ⟨"ttps://".data, rfl⟩
  have hlinkne : link ≠ [] := by rw [hlink, hs']; simp
  set B := if cleanBody text = [] then placeholderText else cleanBody text with hB
  set body := pyRstrip B with hbody
  have hsep4 : ("\n\n🔗 ".data).length = 4 := by decide
  have hOlen : (body ++ "\n\n🔗 ".data ++ link).length ≤ 900 := by
    rw [List.length_append, List.length_append, hsep4]
    omega
  have hEq : sanitize_llm_post text link = body ++ "\n\n🔗 ".data ++ link := by
    unfold sanitize_llm_post
    rw [← hB, ← hbody]
    exact List.take_of_length_le hOlen
  have hnoB : ¬ (s ++ [x]) <:+: B := by
    rw [hB]
    by_cases hcb : cleanBody text = []
    · rw [if_pos hcb]
      intro hoc
      have hhm : 'h' ∈ s ++ [x] := by
        rw [hs']
        exact List.mem_append_left _ (List.mem_cons_self _ _)
      exact absurd (hoc.sublist.subset hhm) (by decide)
    · rw [if_neg hcb]
      exact cleanBody_no_url text s x hs hx
  refine ⟨?_, cleanBody_no_url text s x hs hx, hEq, ?_, ?_⟩
  · unfold sanitize_llm_post
    exact List.length_take_le _ _
  · rw [hEq, List.append_assoc]
    have Hbody : ∀ t, t <:+ body → t ≠ [] →
        ¬ link <+: (t ++ ("\n\n🔗 ".data ++ link)) := by
      intro t ht htne hpre
      by_cases hlen : link.length ≤ t.length
      · have htake : link = t.take link.length := by
          have h1 := List.prefix_iff_eq_take.mp hpre
          rw [List.take_append_of_le_length hlen] at h1
          exact h1
        have hlinf : link <:+: body :=
          (List.prefix_iff_eq_take.mpr htake).isInfix.trans ht.isInfix
        have hsx : (s ++ [x]) <+: link := by
          rw [hlink]
          refine ⟨rest, ?_⟩
          simp
        exact hnoB ((hsx.isInfix.trans hlinf).trans (pyRstrip_prefix_self B).isInfix)
      · push_neg at hlen
        have htake := List.prefix_iff_eq_take.mp hpre
        rw [List.take_append_eq_append_take,
          List.take_of_length_le (le_of_lt hlen)] at htake
        obtain ⟨k, hk⟩ : ∃ k, link.length - t.length = k + 1 :=
          ⟨link.length - t.length - 1, by omega⟩
        rw [hk, show ("\n\n🔗 ".data ++ link) = '\n' :: ("\n🔗 ".data ++ link) from rfl,
          List.take_succ_cons] at htake
        have hmem : '\n' ∈ link := by
          rw [htake]
          exact List.mem_append_right _ (List.mem_cons_self _ _)
        exact absurd (hchars '\n' hmem) (by decide)
    rw [countOccs_append_no_start body ("\n\n🔗 ".data ++ link) link Hbody]
    have Hsep : ∀ t, t <:+ "\n\n🔗 ".data → t ≠ [] → ¬ link <+: (t ++ link) := by
      intro t ht htne hpre
      cases t with
      | nil => exact absurd rfl htne
      | cons t0 t' =>
        rw [hlink, hs', List.cons_append, List.cons_append] at hpre
        have hh := (List.cons_prefix_cons.mp hpre).1
        have ht0 : t0 ∈ "\n\n🔗 ".data := ht.sublist.subset (List.mem_cons_self t0 t')
        rw [← hh] at ht0
        exact absurd ht0 (by decide)
    rw [countOccs_append_no_start ("\n\n🔗 ".data) link link Hsep]
    exact countOccs_self hlinkne
  · rw [hEq]
    exact ⟨body ++ "\n\n🔗 ".data, rfl⟩

theorem pyRstrip_id {l : List Char} (h : ∀ c ∈ l, isPySpace c = false) :
    pyRstrip l = l := by
  unfold pyRstrip dropTrailing
  rw [dropWhile_id (fun c hc => h c (List.mem_reverse.mp hc)), List.reverse_reverse]

/-- `cleanBody` fixes a sample text with no URLs, digits, labels or blank
lines. -/
theorem cleanBody_sample : cleanBody "Good day.".data = "Good day.".data := by
  have hf : ("Good day.".data).filter (fun c => c ≠ '\r') = "Good day.".data := by decide
  have hp : pyStrip "Good day.".data = "Good day.".data := by decide
  have hu : stripUrls "Good day.".data = "Good day.".data :=
    stripUrls_id _ (by decide)
  have he : stripEnum "Good day.".data = "Good day.".data := by
    unfold stripEnum
    exact lineScan_id_true (by decide) (by decide)
  have hlb : stripLabel "Good day.".data = "Good day.".data := by
    unfold stripLabel
    exact lineScan_id_true (by decide) (by decide)
  have hbr : stripBracket "Good day.".data = "Good day.".data := by
    unfold stripBracket
    exact lineScan_id_true (by decide) (by decide)
  have hc : collapseNl "Good day.".data = "Good day.".data :=
    collapseNl_id _ (by decide)
  unfold cleanBody
  rw [hf, hp, hu, hp, he, hp, hlb, hbr, hc, hp]

/-- `cleanBody` fixes a 1000-character body of plain letters. -/
theorem cleanBody_replicate :
    cleanBody (List.replicate 1000 'a') = List.replicate 1000 'a' := by
  have hmem : ∀ (c : Char), c ∈ List.replicate 1000 'a' → c = 'a' :=
    fun c hc => List.eq_of_mem_replicate hc
  have hf : (List.replicate 1000 'a').filter (fun c => c ≠ '\r') =
      List.replicate 1000 'a' :=
    List.filter_eq_self.mpr (fun a ha => by rw [hmem a ha]; decide)
  have hp : pyStrip (List.replicate 1000 'a') = List.replicate 1000 'a' :=
    pyStrip_id (fun c hc => by rw [hmem c hc]; decide)
  have hu : stripUrls (List.replicate 1000 'a') = List.replicate 1000 'a' :=
    stripUrls_id _ (fun c hc => by rw [hmem c hc]; decide)
  have hnlm : ∀ c ∈ List.replicate 1000 'a', ¬c = '\n' :=
    fun c hc => by rw [hmem c hc]; decide
  have he : stripEnum (List.replicate 1000 'a') = List.replicate 1000 'a' := by
    unfold stripEnum
    exact lineScan_id_true (by decide) hnlm
  have hlb : stripLabel (List.replicate 1000 'a') = List.replicate 1000 'a' := by
    unfold stripLabel
    exact lineScan_id_true (by decide) hnlm
  have hbr : stripBracket (List.replicate 1000 'a') = List.replicate 1000 'a' := by
    unfold stripBracket
    exact lineScan_id_true (by decide) hnlm
  have hc : collapseNl (List.replicate 1000 'a') = List.replicate 1000 'a' :=
    collapseNl_id _ hnlm
  unfold cleanBody
  rw [hf, hp, hu, hp, he, hp, hlb, hbr, hc, hp]

/-- With a 1000-character cleaned body the 900-character cut falls inside
the body and removes the appended link entirely. -/
theorem sanitize_replicate :
    sanitize_llm_post (List.replicate 1000 'a') "http://e/1".data =
      List.replicate 900 'a' := by
  unfold sanitize_llm_post
  rw [cleanBody_replicate, if_neg (by simp)]
  rw [pyRstrip_id (fun c hc => by rw [List.eq_of_mem_replicate hc]; decide)]
  rw [List.append_assoc, List.take_append_eq_append_take, List.take_replicate,
    List.length_replicate]
  norm_num

/-- C6 witness: on the text `"Good day."` and the link `http://e/1`, the
cleaned body keeps no inline URL, the output is the body plus `"\n\n🔗 "`
plus the link, stays within 900 characters, and holds the link exactly once
at the end. -/
theorem sanitize_llm_post_spec_witness :
    (sanitize_llm_post "Good day.".data "http://e/1".data).length ≤ 900 ∧
    ¬ ("http://".data ++ ['e']) <:+: cleanBody "Good day.".data ∧
    sanitize_llm_post "Good day.".data "http://e/1".data =
      pyRstrip (if cleanBody "Good day.".data = [] then placeholderText
        else cleanBody "Good day.".data) ++ "\n\n🔗 ".data ++ "http://e/1".data ∧
    countOccs "http://e/1".data
      (sanitize_llm_post "Good day.".data "http://e/1".data) = 1 ∧
    "http://e/1".data <:+ sanitize_llm_post "Good day.".data "http://e/1".data :=
  sanitize_llm_post_spec "Good day.".data "http://e/1".data "http://".data 'e'
    "/1".data (Or.inl rfl) rfl (by decide)
    (by rw [cleanBody_sample]; decide)

/-- C6 counterexample: with a 1000-character cleaned body, truncation to
900 characters — applied after the link is appended — cuts the canonical
link off entirely, so the output does not contain the link even once. -/
theorem sanitize_truncation_counterexample :
    countOccs "http://e/1".data
      (sanitize_llm_post (List.replicate 1000 'a') "http://e/1".data) = 0 := by
  rw [sanitize_replicate]
  exact countOccs_head_not_mem (by
    intro hm
    exact absurd (List.eq_of_mem_replicate hm) (by decide))

/-! ## Character classes of `normalize_url` (C2/C10 support) -/

theorem toNat_ofNat_small {n : Nat} (h : n < 55296) : (Char.ofNat n).toNat = n := by
  have hv : n.isValidChar := Or.inl h
  unfold Char.ofNat
  rw [dif_pos hv]
  rfl

theorem char_mem_of_bounds {c : Char} {lo hi : Nat} {L : List Char}
    (h1 : lo ≤ c.toNat) (h2 : c.toNat ≤ hi)
    (hall : ∀ n, lo ≤ n → n ≤ hi → Char.ofNat n ∈ L) : c ∈ L := by
  rw [← Char.ofNat_toNat c]
  exact hall _ h1 h2

theorem char_mem_scheme {c : Char} (h : isSchemeChar c = true) :
    c ∈ "ABCDEFGHIJKLMNOPQRSTUVWXYZabcdefghijklmnopqrstuvwxyz0123456789+-.".data := by
  unfold isSchemeChar at h
  simp [Char.isAlphanum, Char.isAlpha, Char.isUpper, Char.isLower, Char.isDigit] at h
  rcases h with ((((⟨h1, h2⟩ | ⟨h1, h2⟩) | ⟨h1, h2⟩) | rfl) | rfl) | rfl
  · exact char_mem_of_bounds (show 65 ≤ c.toNat from h1) (show c.toNat ≤ 90 from h2)
      (by intro n hn1 hn2; interval_cases n <;> decide)
  · exact char_mem_of_bounds (show 97 ≤ c.toNat from h1) (show c.toNat ≤ 122 from h2)
      (by intro n hn1 hn2; interval_cases n <;> decide)
  · exact char_mem_of_bounds (show 48 ≤ c.toNat from h1) (show c.toNat ≤ 57 from h2)
      (by intro n hn1 hn2; interval_cases n <;> decide)
  · decide
  · decide
  · decide

theorem char_mem_alpha {c : Char} (h : c.isAlpha = true) :
    c ∈ "ABCDEFGHIJKLMNOPQRSTUVWXYZabcdefghijklmnopqrstuvwxyz".data := by
  simp [Char.isAlpha, Char.isUpper, Char.isLower] at h
  rcases h with ⟨h1, h2⟩ | ⟨h1, h2⟩
  · exact char_mem_of_bounds (show 65 ≤ c.toNat from h1) (show c.toNat ≤ 90 from h2)
      (by intro n hn1 hn2; interval_cases n <;> decide)
  · exact char_mem_of_bounds (show 97 ≤ c.toNat from h1) (show c.toNat ≤ 122 from h2)
      (by intro n hn1 hn2; interval_cases n <;> decide)

theorem char_mem_safe {c : Char} (h : isQuoteSafe c = true) :
    c ∈ "ABCDEFGHIJKLMNOPQRSTUVWXYZabcdefghijklmnopqrstuvwxyz0123456789_.-~".data := by
  unfold isQuoteSafe at h
  simp [Char.isAlphanum, Char.isAlpha, Char.isUpper, Char.isLower, Char.isDigit] at h
  rcases h with (((((⟨h1, h2⟩ | ⟨h1, h2⟩) | ⟨h1, h2⟩) | rfl) | rfl) | rfl) | rfl
  · exact char_mem_of_bounds (show 65 ≤ c.toNat from h1) (show c.toNat ≤ 90 from h2)
      (by intro n hn1 hn2; interval_cases n <;> decide)
  · exact char_mem_of_bounds (show 97 ≤ c.toNat from h1) (show c.toNat ≤ 122 from h2)
      (by intro n hn1 hn2; interval_cases n <;> decide)
  · exact char_mem_of_bounds (show 48 ≤ c.toNat from h1) (show c.toNat ≤ 57 from h2)
      (by intro n hn1 hn2; interval_cases n <;> decide)
  · decide
  · decide
  · decide
  · decide

theorem char_mem_hexdigit {c : Char} (h : isHexDigit c = true) :
    c ∈ "0123456789abcdefABCDEF".data := by
  unfold isHexDigit at h
  simp [Char.le_def, UInt32.le_def, BitVec.le_def] at h
  rcases h with (⟨h1, h2⟩ | ⟨h1, h2⟩) | ⟨h1, h2⟩
  · exact char_mem_of_bounds (show 48 ≤ c.toNat from h1) (show c.toNat ≤ 57 from h2)
      (by intro n hn1 hn2; interval_cases n <;> decide)
  · exact char_mem_of_bounds (show 97 ≤ c.toNat from h1) (show c.toNat ≤ 102 from h2)
      (by intro n hn1 hn2; interval_cases n <;> decide)
  · exact char_mem_of_bounds (show 65 ≤ c.toNat from h1) (show c.toNat ≤ 70 from h2)
      (by intro n hn1 hn2; interval_cases n <;> decide)

theorem schemeChars_lower_facts :
    ∀ c ∈ "ABCDEFGHIJKLMNOPQRSTUVWXYZabcdefghijklmnopqrstuvwxyz0123456789+-.".data,
      isSchemeChar (Char.toLower c) = true ∧ (Char.toLower c).toLower = Char.toLower c ∧
      ¬Char.toLower c = ':' := by decide

theorem alphaChars_lower_alpha :
    ∀ c ∈ "ABCDEFGHIJKLMNOPQRSTUVWXYZabcdefghijklmnopqrstuvwxyz".data,
      (Char.toLower c).isAlpha = true := by decide

theorem safeChars_facts :
    ∀ c ∈ "ABCDEFGHIJKLMNOPQRSTUVWXYZabcdefghijklmnopqrstuvwxyz0123456789_.-~".data,
      ¬c = '&' ∧ ¬c = '=' ∧ ¬c = '#' ∧ c.toNat < 256 := by decide

theorem hexChars_facts :
    ∀ c ∈ "0123456789ABCDEF".data,
      ¬c = '&' ∧ ¬c = '=' ∧ ¬c = '#' ∧ c.toNat < 256 := by decide

theorem hexUpper_mem {d : Nat} (h : d < 16) : hexUpper d ∈ "0123456789ABCDEF".data := by
  interval_cases d <;> decide

theorem hexVal_hexUpper {d : Nat} (h : d < 16) : hexVal (hexUpper d) = d := by
  interval_cases d <;> decide

theorem isHexDigit_hexUpper {d : Nat} (h : d < 16) : isHexDigit (hexUpper d) = true := by
  interval_cases d <;> decide

theorem hexVal_lt {c : Char} (h : isHexDigit c = true) : hexVal c < 16 := by
  have hf : ∀ c ∈ "0123456789abcdefABCDEF".data, hexVal c < 16 := by decide
  exact hf c (char_mem_hexdigit h)

theorem quotePlus_cons (c : Char) (cs : List Char) :
    quotePlus (c :: cs) = quotePlusChar c ++ quotePlus cs := by
  simp [quotePlus]

/-- Every character emitted by `quote_plus` is a safe character, `+`, `%`
or an uppercase hex digit. -/
theorem quotePlusChar_classes {c t : Char} (h : t ∈ quotePlusChar c) :
    t ∈ "ABCDEFGHIJKLMNOPQRSTUVWXYZabcdefghijklmnopqrstuvwxyz0123456789_.-~".data ∨
      t = '+' ∨ t = '%' ∨ t ∈ "0123456789ABCDEF".data := by
  unfold quotePlusChar at h
  split at h
  · rename_i hsafe
    rw [List.mem_singleton] at h
    subst h
    exact Or.inl (char_mem_safe hsafe)
  · split at h
    · rw [List.mem_singleton] at h
      exact Or.inr (Or.inl h)
    · simp only [List.mem_cons, List.not_mem_nil, or_false] at h
      rcases h with rfl | rfl | rfl
      · exact Or.inr (Or.inr (Or.inl rfl))
      · exact Or.inr (Or.inr (Or.inr (hexUpper_mem (by omega))))
      · exact Or.inr (Or.inr (Or.inr (hexUpper_mem (by omega))))

theorem quotePlus_classes {t : Char} {l : List Char} (h : t ∈ quotePlus l) :
    t ∈ "ABCDEFGHIJKLMNOPQRSTUVWXYZabcdefghijklmnopqrstuvwxyz0123456789_.-~".data ∨
      t = '+' ∨ t = '%' ∨ t ∈ "0123456789ABCDEF".data := by
  induction l with
  | nil => simp [quotePlus] at h
  | cons c cs ih =>
    rw [quotePlus_cons, List.mem_append] at h
    rcases h with h | h
    · exact quotePlusChar_classes h
    · exact ih h

theorem quotePlus_facts {t : Char} {l : List Char} (h : t ∈ quotePlus l) :
    ¬t = '&' ∧ ¬t = '=' ∧ ¬t = '#' ∧ t.toNat < 256 := by
  rcases quotePlus_classes h with hm | rfl | rfl | hm
  · exact safeChars_facts t hm
  · exact ⟨by decide, by decide, by decide, by decide⟩
  · exact ⟨by decide, by decide, by decide, by decide⟩
  · exact hexChars_facts t hm

theorem unquotePlusF_nil (n : Nat) : unquotePlusF n [] = [] := by
  cases n <;> rfl

/-- The decoder's result does not depend on the fuel, as long as the fuel
covers the input length. -/
theorem unquotePlusF_irrel :
    ∀ (n m : Nat) (l : List Char), l.length ≤ n → l.length ≤ m →
      unquotePlusF n l = unquotePlusF m l := by
  intro n
  induction n with
  | zero =>
    intro m l hn _
    have hl : l = [] := List.eq_nil_of_length_eq_zero (by omega)
    subst hl
    rw [unquotePlusF_nil, unquotePlusF_nil]
  | succ k ih =>
    intro m l hn hm
    cases l with
    | nil => rw [unquotePlusF_nil, unquotePlusF_nil]
    | cons c rest =>
      cases m with
      | zero => simp at hm
      | succ k' =>
        have hn' : rest.length ≤ k := by simp at hn; omega
        have hm' : rest.length ≤ k' := by simp at hm; omega
        rcases rest with _ | ⟨a, _ | ⟨b, rest'⟩⟩
        · show (if c = '+' then ' ' :: unquotePlusF k []
            else if c = '%' then '%' :: unquotePlusF k []
            else c :: unquotePlusF k []) =
            (if c = '+' then ' ' :: unquotePlusF k' []
            else if c = '%' then '%' :: unquotePlusF k' []
            else c :: unquotePlusF k' [])
          rw [unquotePlusF_nil, unquotePlusF_nil]
        · show (if c = '+' then ' ' :: unquotePlusF k [a]
            else if c = '%' then '%' :: unquotePlusF k [a]
            else c :: unquotePlusF k [a]) =
            (if c = '+' then ' ' :: unquotePlusF k' [a]
            else if c = '%' then '%' :: unquotePlusF k' [a]
            else c :: unquotePlusF k' [a])
          rw [ih k' [a] hn' hm']
        · have hr1' : rest'.length ≤ k := by simp at hn'; omega
          have hr2' : rest'.length ≤ k' := by simp at hm'; omega
          show (if c = '+' then ' ' :: unquotePlusF k (a :: b :: rest')
            else if c = '%' then
              (if isHexDigit a && isHexDigit b then
                Char.ofNat (16 * hexVal a + hexVal b) :: unquotePlusF k rest'
              else '%' :: unquotePlusF k (a :: b :: rest'))
            else c :: unquotePlusF k (a :: b :: rest')) =
            (if c = '+' then ' ' :: unquotePlusF k' (a :: b :: rest')
            else if c = '%' then
              (if isHexDigit a && isHexDigit b then
                Char.ofNat (16 * hexVal a + hexVal b) :: unquotePlusF k' rest'
              else '%' :: unquotePlusF k' (a :: b :: rest'))
            else c :: unquotePlusF k' (a :: b :: rest'))
          rw [ih k' (a :: b :: rest') hn' hm', ih k' rest' hr1' hr2']

theorem unquotePlus_plus (r : List Char) :
    unquotePlus ('+' :: r) = ' ' :: unquotePlus r := rfl

theorem unquotePlus_keep {c : Char} (r : List Char) (h1 : ¬c = '+') (h2 : ¬c = '%') :
    unquotePlus (c :: r) = c :: unquotePlus r := by
  show (if c = '+' then ' ' :: unquotePlusF r.length r
    else if c = '%' then
      match r with
      | a :: b :: rest' =>
        if isHexDigit a && isHexDigit b then
          Char.ofNat (16 * hexVal a + hexVal b) :: unquotePlusF r.length rest'
        else '%' :: unquotePlusF r.length r
      | _ => '%' :: unquotePlusF r.length r
    else c :: unquotePlusF r.length r) = c :: unquotePlus r
  rw [if_neg h1, if_neg h2]
  rfl

theorem unquotePlus_decode {a b : Char} (r : List Char)
    (ha : isHexDigit a = true) (hb : isHexDigit b = true) :
    unquotePlus ('%' :: a :: b :: r) =
      Char.ofNat (16 * hexVal a + hexVal b) :: unquotePlus r := by
  show (if (isHexDigit a && isHexDigit b) = true then
      Char.ofNat (16 * hexVal a + hexVal b) :: unquotePlusF (r.length + 2) r
    else '%' :: unquotePlusF (r.length + 2) (a :: b :: r)) =
    Char.ofNat (16 * hexVal a + hexVal b) :: unquotePlus r
  rw [if_pos (by rw [ha, hb]; rfl)]
  exact congrArg _ (unquotePlusF_irrel _ _ r (by omega) le_rfl)

/-- Decoding inverts encoding for code points below 256 (the scope on which
the byte-level model coincides with CPython). -/
theorem unquote_quote : ∀ (l : List Char), (∀ c ∈ l, c.toNat < 256) →
    unquotePlus (quotePlus l) = l := by
  intro l
  induction l with
  | nil => intro _; rfl
  | cons c cs ih =>
    intro h
    have hcs := fun d hd => h d (List.mem_cons_of_mem c hd)
    have hc : c.toNat < 256 := h c (List.mem_cons_self c cs)
    rw [quotePlus_cons]
    unfold quotePlusChar
    by_cases hsafe : isQuoteSafe c = true
    · rw [if_pos hsafe]
      have h1 : ¬c = '+' := fun he => by rw [he] at hsafe; exact absurd hsafe (by decide)
      have h2 : ¬c = '%' := fun he => by rw [he] at hsafe; exact absurd hsafe (by decide)
      show unquotePlus (c :: quotePlus cs) = c :: cs
      rw [unquotePlus_keep _ h1 h2, ih hcs]
    · rw [if_neg hsafe]
      by_cases hsp : c = ' '
      · rw [if_pos (by rw [hsp]; rfl)]
        show unquotePlus ('+' :: quotePlus cs) = c :: cs
        rw [unquotePlus_plus, ih hcs, hsp]
      · rw [if_neg (by simp [hsp])]
        show unquotePlus ('%' :: hexUpper (c.toNat / 16 % 16) ::
          hexUpper (c.toNat % 16) :: quotePlus cs) = c :: cs
        rw [unquotePlus_decode _ (isHexDigit_hexUpper (by omega))
          (isHexDigit_hexUpper (by omega))]
        rw [hexVal_hexUpper (by omega), hexVal_hexUpper (by omega), ih hcs]
        congr 1
        have hv : 16 * (c.toNat / 16 % 16) + c.toNat % 16 = c.toNat := by omega
        rw [hv, Char.ofNat_toNat]

/-- Decoded text stays below code point 256 when the input does. -/
theorem unquotePlusF_bound :
    ∀ (n : Nat) (l : List Char), (∀ c ∈ l, c.toNat < 256) →
      ∀ t ∈ unquotePlusF n l, t.toNat < 256 := by
  intro n
  induction n with
  | zero =>
    intro l h t ht
    cases l with
    | nil => rw [unquotePlusF_nil] at ht; simp at ht
    | cons c rest => exact h t ht
  | succ k ih =>
    intro l h t ht
    cases l with
    | nil => rw [unquotePlusF_nil] at ht; simp at ht
    | cons c rest =>
      have hc : c.toNat < 256 := h c (List.mem_cons_self c rest)
      have hrest := fun d hd => h d (List.mem_cons_of_mem c hd)
      rcases rest with _ | ⟨a, _ | ⟨b, rest'⟩⟩
      · rw [show unquotePlusF (k + 1) [c] =
            (if c = '+' then ' ' :: unquotePlusF k []
            else if c = '%' then '%' :: unquotePlusF k []
            else c :: unquotePlusF k []) from rfl, unquotePlusF_nil] at ht
        split_ifs at ht
        · rcases List.mem_cons.mp ht with rfl | ht2
          · decide
          · simp at ht2
        · rcases List.mem_cons.mp ht with rfl | ht2
          · decide
          · simp at ht2
        · rcases List.mem_cons.mp ht with rfl | ht2
          · exact hc
          · simp at ht2
      · rw [show unquotePlusF (k + 1) [c, a] =
            (if c = '+' then ' ' :: unquotePlusF k [a]
            else if c = '%' then '%' :: unquotePlusF k [a]
            else c :: unquotePlusF k [a]) from rfl] at ht
        split_ifs at ht
        · rcases List.mem_cons.mp ht with rfl | ht2
          · decide
          · exact ih [a] hrest t ht2
        · rcases List.mem_cons.mp ht with rfl | ht2
          · decide
          · exact ih [a] hrest t ht2
        · rcases List.mem_cons.mp ht with rfl | ht2
          · exact hc
          · exact ih [a] hrest t ht2
      · rw [show unquotePlusF (k + 1) (c :: a :: b :: rest') =
            (if c = '+' then ' ' :: unquotePlusF k (a :: b :: rest')
            else if c = '%' then
              (if isHexDigit a && isHexDigit b then
                Char.ofNat (16 * hexVal a + hexVal b) :: unquotePlusF k rest'
              else '%' :: unquotePlusF k (a :: b :: rest'))
            else c :: unquotePlusF k (a :: b :: rest')) from rfl] at ht
        have hrest' := fun d hd =>
          hrest d (List.mem_cons_of_mem a (List.mem_cons_of_mem b hd))
        split_ifs at ht with hp1 hp2 hp3
        · rcases List.mem_cons.mp ht with rfl | ht2
          · decide
          · exact ih _ hrest t ht2
        · rcases List.mem_cons.mp ht with rfl | ht2
          · obtain ⟨ha, hb⟩ : isHexDigit a = true ∧ isHexDigit b = true := by
              simpa using hp3
            have hva := hexVal_lt ha
            have hvb := hexVal_lt hb
            rw [toNat_ofNat_small (by omega)]
            omega
          · exact ih _ hrest' t ht2
        · rcases List.mem_cons.mp ht with rfl | ht2
          · decide
          · exact ih _ hrest t ht2
        · rcases List.mem_cons.mp ht with rfl | ht2
          · exact hc
          · exact ih _ hrest t ht2

/-- Every character of a `pySplitAll` field comes from the input. -/
theorem pySplitAll_mem {sep : Char} : ∀ {q f : List Char}, f ∈ pySplitAll sep q →
    ∀ c ∈ f, c ∈ q := by
  intro q
  induction q with
  | nil =>
    intro f hf c hc
    simp [pySplitAll] at hf
    subst hf
    simp at hc
  | cons d ds ih =>
    intro f hf c hc
    unfold pySplitAll at hf
    split at hf
    · rcases List.mem_cons.mp hf with rfl | hf2
      · simp at hc
      · exact List.mem_cons_of_mem d (ih hf2 c hc)
    · cases hps : pySplitAll sep ds with
      | nil => exact absurd hps (pySplitAll_ne_nil sep ds)
      | cons a restl =>
        rw [hps] at hf
        rcases List.mem_cons.mp hf with rfl | hf2
        · rcases List.mem_cons.mp hc with rfl | hc2
          · exact List.mem_cons_self c ds
          · exact List.mem_cons_of_mem d
              (ih (by rw [hps]; exact List.mem_cons_self a restl) c hc2)
        · exact List.mem_cons_of_mem d
            (ih (by rw [hps]; exact List.mem_cons_of_mem a hf2) c hc)

theorem splitOnFirst_append {sep : Char} : ∀ (a b : List Char), sep ∉ a →
    splitOnFirst sep (a ++ sep :: b) = some (a, b) := by
  intro a
  induction a with
  | nil =>
    intro b _
    show splitOnFirst sep (sep :: b) = some ([], b)
    unfold splitOnFirst
    rw [if_pos rfl]
  | cons x xs ih =>
    intro b h
    rw [List.mem_cons, not_or] at h
    obtain ⟨h1, h2⟩ := h
    show splitOnFirst sep (x :: (xs ++ sep :: b)) = some (x :: xs, b)
    unfold splitOnFirst
    rw [if_neg (fun he => h1 he.symm), ih b h2]

theorem intercalate_cons_cons (a b : List Char) (l : List (List Char)) :
    List.intercalate ['&'] (a :: b :: l) =
      a ++ '&' :: List.intercalate ['&'] (b :: l) := by
  unfold List.intercalate
  rw [List.intersperse_cons_cons, List.flatten_cons, List.flatten_cons]
  rfl

theorem pySplitAll_no_sep {sep : Char} : ∀ {f : List Char}, sep ∉ f →
    pySplitAll sep f = [f] := by
  intro f
  induction f with
  | nil => intro _; rfl
  | cons x xs ih =>
    intro h
    rw [List.mem_cons, not_or] at h
    obtain ⟨h1, h2⟩ := h
    unfold pySplitAll
    rw [if_neg (fun he => h1 he.symm), ih h2]

theorem pySplitAll_append {sep : Char} : ∀ (f t : List Char), sep ∉ f →
    pySplitAll sep (f ++ sep :: t) = f :: pySplitAll sep t := by
  intro f
  induction f with
  | nil =>
    intro t _
    show pySplitAll sep (sep :: t) = [] :: pySplitAll sep t
    conv_lhs => unfold pySplitAll
    rw [if_pos rfl]
  | cons x xs ih =>
    intro t h
    rw [List.mem_cons, not_or] at h
    obtain ⟨h1, h2⟩ := h
    show pySplitAll sep (x :: (xs ++ sep :: t)) = (x :: xs) :: pySplitAll sep t
    conv_lhs => unfold pySplitAll
    rw [if_neg (fun he => h1 he.symm), ih t h2]

theorem pySplitAll_intercalate : ∀ (fs : List (List Char)),
    (∀ f ∈ fs, '&' ∉ f) → fs ≠ [] →
    pySplitAll '&' (List.intercalate ['&'] fs) = fs := by
  intro fs
  induction fs with
  | nil => intro _ h; exact absurd rfl h
  | cons f fs' ih =>
    intro h _
    cases fs' with
    | nil =>
      have hone : List.intercalate ['&'] [f] = f := by
        unfold List.intercalate
        simp
      rw [hone]
      exact pySplitAll_no_sep (h f (List.mem_cons_self f []))
    | cons g fs'' =>
      rw [intercalate_cons_cons,
        pySplitAll_append _ _ (h f (List.mem_cons_self f (g :: fs''))),
        ih (fun x hx => h x (List.mem_cons_of_mem f hx)) (by simp)]

/-- `parse_qsl` inverts `urlencode` on pairs of code points below 256. -/
theorem parse_qsl_urlencode : ∀ (l : List (List Char × List Char)),
    (∀ kv ∈ l, (∀ c ∈ kv.1, c.toNat < 256) ∧ (∀ c ∈ kv.2, c.toNat < 256)) →
    parse_qsl (urlencode l) = l := by
  intro l h
  cases l with
  | nil => rfl
  | cons kv0 l' =>
    unfold parse_qsl urlencode
    have hfields : ∀ f ∈ (kv0 :: l').map
        (fun kv => quotePlus kv.1 ++ '=' :: quotePlus kv.2), '&' ∉ f := by
      intro f hf hmem
      obtain ⟨kv, hkv, rfl⟩ := List.mem_map.mp hf
      rcases List.mem_append.mp hmem with hm | hm
      · exact (quotePlus_facts hm).1 rfl
      · rcases List.mem_cons.mp hm with he | hm2
        · exact absurd he (by decide)
        · exact (quotePlus_facts hm2).1 rfl
    rw [pySplitAll_intercalate _ hfields (by simp)]
    rw [List.filter_eq_self.mpr ?hne]
    case hne =>
      intro f hf
      obtain ⟨kv, hkv, rfl⟩ := List.mem_map.mp hf
      rcases hq : quotePlus kv.1 with _ | ⟨x, xs⟩ <;> simp
    rw [List.map_map]
    have hid : ∀ kv ∈ kv0 :: l',
        (parseQslField ∘ fun kv => quotePlus kv.1 ++ '=' :: quotePlus kv.2) kv =
          id kv := by
      intro kv hkv
      obtain ⟨hk, hv⟩ := h kv hkv
      show parseQslField (quotePlus kv.1 ++ '=' :: quotePlus kv.2) = kv
      unfold parseQslField
      rw [splitOnFirst_append _ _ (fun hm => (quotePlus_facts hm).2.1 rfl)]
      show (unquotePlus (quotePlus kv.1), unquotePlus (quotePlus kv.2)) = kv
      rw [unquote_quote _ hk, unquote_quote _ hv]
    rw [List.map_congr_left hid, List.map_id]

/-- The components parsed from a query of code points below 256 stay below
256. -/
theorem parse_qsl_bound {q : List Char} (hq : ∀ c ∈ q, c.toNat < 256) :
    ∀ kv ∈ parse_qsl q, (∀ c ∈ kv.1, c.toNat < 256) ∧ (∀ c ∈ kv.2, c.toNat < 256) := by
  intro kv hkv
  unfold parse_qsl at hkv
  obtain ⟨f, hf, rfl⟩ := List.mem_map.mp hkv
  have hfm : f ∈ pySplitAll '&' q := List.mem_of_mem_filter hf
  have hfb : ∀ c ∈ f, c.toNat < 256 := fun c hc => hq c (pySplitAll_mem hfm c hc)
  unfold parseQslField
  cases hsp : splitOnFirst '=' f with
  | none =>
    exact ⟨fun c hc => unquotePlusF_bound _ _ hfb c hc, by simp⟩
  | some ab =>
    obtain ⟨n, v⟩ := ab
    obtain ⟨heq, -⟩ := splitOnFirst_eq_some '=' f n v hsp
    have hn : ∀ c ∈ n, c.toNat < 256 := fun c hc =>
      hfb c (by rw [heq]; exact List.mem_append_left _ hc)
    have hv : ∀ c ∈ v, c.toNat < 256 := fun c hc =>
      hfb c (by rw [heq]; exact List.mem_append_right _ (List.mem_cons_of_mem _ hc))
    exact ⟨fun c hc => unquotePlusF_bound _ _ hn c hc,
      fun c hc => unquotePlusF_bound _ _ hv c hc⟩

/-! ## Dissecting `urlsplit` and re-splitting `urlunsplit` output -/

theorem sepSplit_fst_not_mem (sep : Char) (l : List Char) :
    sep ∉ (sepSplit sep l).1 := by
  unfold sepSplit
  cases hsp : splitOnFirst sep l with
  | none => exact splitOnFirst_eq_none sep l hsp
  | some ab =>
    obtain ⟨a, b⟩ := ab
    exact (splitOnFirst_eq_some sep l a b hsp).2

theorem sepSplit_of_not_mem {sep : Char} {l : List Char} (h : sep ∉ l) :
    sepSplit sep l = (l, []) := by
  unfold sepSplit
  cases hsp : splitOnFirst sep l with
  | none => rfl
  | some ab =>
    obtain ⟨a, b⟩ := ab
    obtain ⟨hl, -⟩ := splitOnFirst_eq_some sep l a b hsp
    exact absurd (by rw [hl]; exact List.mem_append_right _ (List.mem_cons_self _ _)) h

theorem sepSplit_append {sep : Char} {a b : List Char} (h : sep ∉ a) :
    sepSplit sep (a ++ sep :: b) = (a, b) := by
  unfold sepSplit
  rw [splitOnFirst_append a b h]

theorem sepSplit_fst_subset {sep : Char} {l : List Char} :
    ∀ c ∈ (sepSplit sep l).1, c ∈ l := by
  intro c hc
  unfold sepSplit at hc
  cases hsp : splitOnFirst sep l with
  | none => rw [hsp] at hc; exact hc
  | some ab =>
    obtain ⟨a, b⟩ := ab
    rw [hsp] at hc
    obtain ⟨hl, -⟩ := splitOnFirst_eq_some sep l a b hsp
    rw [hl]
    exact List.mem_append_left _ hc

theorem sepSplit_fst_head {sep d : Char} {t : List Char} (hd : ¬d = sep) :
    ∃ a', (sepSplit sep (d :: t)).1 = d :: a' := by
  unfold sepSplit
  cases hsp : splitOnFirst sep (d :: t) with
  | none => exact ⟨t, rfl⟩
  | some ab =>
    obtain ⟨a, b⟩ := ab
    obtain ⟨hl, -⟩ := splitOnFirst_eq_some sep _ a b hsp
    cases a with
    | nil =>
      rw [List.nil_append] at hl
      injection hl with h1 _
      exact absurd h1 hd
    | cons a0 a' =>
      rw [List.cons_append] at hl
      injection hl with h1 _
      exact ⟨a', show a0 :: a' = d :: a' by rw [h1]⟩

theorem extractScheme_none {url : List Char} (hsp : splitOnFirst ':' url = none) :
    extractScheme url = ([], url) := by
  unfold extractScheme
  rw [hsp]

theorem extractScheme_valid {url rest : List Char} {c : Char} {cs : List Char}
    (hsp : splitOnFirst ':' url = some (c :: cs, rest))
    (hg : (c.isAlpha && (c :: cs).all isSchemeChar) = true) :
    extractScheme url = ((c :: cs).map Char.toLower, rest) := by
  unfold extractScheme
  rw [hsp]
  show (if c.isAlpha && (c :: cs).all isSchemeChar then ((c :: cs).map Char.toLower, rest)
    else ([], url)) = _
  rw [if_pos hg]

theorem extractScheme_invalid {url rest : List Char} {c : Char} {cs : List Char}
    (hsp : splitOnFirst ':' url = some (c :: cs, rest))
    (hg : ¬(c.isAlpha && (c :: cs).all isSchemeChar) = true) :
    extractScheme url = ([], url) := by
  unfold extractScheme
  rw [hsp]
  show (if c.isAlpha && (c :: cs).all isSchemeChar then ((c :: cs).map Char.toLower, rest)
    else ([], url)) = _
  rw [if_neg hg]

theorem extractScheme_head_slash (t : List Char) :
    extractScheme ('/' :: t) = ([], '/' :: t) := by
  cases hsp : splitOnFirst ':' ('/' :: t) with
  | none => exact extractScheme_none hsp
  | some ab =>
    obtain ⟨a, b⟩ := ab
    obtain ⟨hl, -⟩ := splitOnFirst_eq_some ':' _ a b hsp
    cases a with
    | nil =>
      rw [List.nil_append] at hl
      injection hl with h1 _
      exact absurd h1 (by decide)
    | cons a0 a' =>
      rw [List.cons_append] at hl
      injection hl with h1 _
      refine extractScheme_invalid hsp ?_
      rw [← h1, show Char.isAlpha '/' = false from rfl, Bool.false_and]
      simp

theorem extractScheme_shape (u : List Char) :
    (extractScheme u).1 = [] ∨
      ∃ c cs, (extractScheme u).1 = (c :: cs).map Char.toLower ∧
        c.isAlpha = true ∧ (c :: cs).all isSchemeChar = true := by
  cases hsp : splitOnFirst ':' u with
  | none => rw [extractScheme_none hsp]; exact Or.inl rfl
  | some ab =>
    obtain ⟨pre, rest⟩ := ab
    cases pre with
    | nil =>
      left
      unfold extractScheme
      rw [hsp]
    | cons c cs =>
      by_cases hg : (c.isAlpha && (c :: cs).all isSchemeChar) = true
      · right
        obtain ⟨h1, h2⟩ : c.isAlpha = true ∧ (c :: cs).all isSchemeChar = true := by
          simpa using hg
        exact ⟨c, cs, by rw [extractScheme_valid hsp hg], h1, h2⟩
      · left
        rw [extractScheme_invalid hsp hg]

theorem splitNetloc_fst_chars (r : List Char) :
    ∀ c ∈ (splitNetloc r).1, endsNetloc c = false := by
  intro c hc
  unfold splitNetloc at hc
  split at hc
  · have := List.mem_takeWhile_imp hc
    simpa using this
  · simp at hc

theorem splitNetloc_spec (r : List Char) : (splitNetloc r).1 ≠ [] →
    (splitNetloc r).2 = [] ∨
      ∃ d t, (splitNetloc r).2 = d :: t ∧ endsNetloc d = true := by
  unfold splitNetloc
  split
  · intro _
    cases hdw : (r.drop 2).dropWhile (fun c => !endsNetloc c) with
    | nil => exact Or.inl (by simp [hdw])
    | cons d t =>
      refine Or.inr ⟨d, t, by simp [hdw], ?_⟩
      have := dropWhile_head_false hdw
      simpa using this
  · intro h
    exact absurd rfl h

theorem takeWhile_append_all {p : Char → Bool} : ∀ (a b : List Char),
    (∀ c ∈ a, p c = true) →
    (b = [] ∨ ∃ d t, b = d :: t ∧ p d = false) →
    (a ++ b).takeWhile p = a ∧ (a ++ b).dropWhile p = b := by
  intro a
  induction a with
  | nil =>
    intro b _ hb
    rcases hb with rfl | ⟨d, t, rfl, hd⟩
    · exact ⟨rfl, rfl⟩
    · constructor
      · rw [List.nil_append, List.takeWhile_cons]
        simp [hd]
      · rw [List.nil_append, List.dropWhile_cons]
        simp [hd]
  | cons x xs ih =>
    intro b hall hb
    have hx : p x = true := hall x (List.mem_cons_self x xs)
    obtain ⟨ht, hdw⟩ := ih b (fun c hc => hall c (List.mem_cons_of_mem x hc)) hb
    constructor
    · rw [List.cons_append, List.takeWhile_cons]
      simp [hx, ht]
    · rw [List.cons_append, List.dropWhile_cons]
      simp [hx, hdw]

theorem intercalate_one (f : List Char) : List.intercalate ['&'] [f] = f := by
  unfold List.intercalate
  simp

theorem intercalate_mem : ∀ {fs : List (List Char)} {t : Char},
    t ∈ List.intercalate ['&'] fs → t = '&' ∨ ∃ f ∈ fs, t ∈ f := by
  intro fs
  induction fs with
  | nil =>
    intro t ht
    simp [List.intercalate] at ht
  | cons f fs' ih =>
    intro t ht
    cases fs' with
    | nil =>
      rw [intercalate_one] at ht
      exact Or.inr ⟨f, List.mem_cons_self f [], ht⟩
    | cons g fs'' =>
      rw [intercalate_cons_cons] at ht
      rcases List.mem_append.mp ht with hm | hm
      · exact Or.inr ⟨f, List.mem_cons_self _ _, hm⟩
      · rcases List.mem_cons.mp hm with rfl | hm2
        · exact Or.inl rfl
        · rcases ih hm2 with h | ⟨f', hf', htf⟩
          · exact Or.inl h
          · exact Or.inr ⟨f', List.mem_cons_of_mem f hf', htf⟩

theorem urlencode_no_hash (l : List (List Char × List Char)) :
    '#' ∉ urlencode l := by
  intro hm
  unfold urlencode at hm
  rcases intercalate_mem hm with h | ⟨f, hf, htf⟩
  · exact absurd h (by decide)
  · obtain ⟨kv, -, rfl⟩ := List.mem_map.mp hf
    rcases List.mem_append.mp htf with hq | hq
    · exact (quotePlus_facts hq).2.2.1 rfl
    · rcases List.mem_cons.mp hq with he | hq2
      · exact absurd he (by decide)
      · exact (quotePlus_facts hq2).2.2.1 rfl

theorem scheme_lower_all {l : List Char} (h : l.all isSchemeChar = true) :
    (l.map Char.toLower).all isSchemeChar = true ∧
    (l.map Char.toLower).map Char.toLower = l.map Char.toLower ∧
    ':' ∉ l.map Char.toLower := by
  rw [List.all_eq_true] at h
  refine ⟨?_, ?_, ?_⟩
  · rw [List.all_eq_true]
    intro x hx
    obtain ⟨d, hd, rfl⟩ := List.mem_map.mp hx
    exact (schemeChars_lower_facts d (char_mem_scheme (h d hd))).1
  · rw [List.map_map]
    apply List.map_congr_left
    intro d hd
    exact (schemeChars_lower_facts d (char_mem_scheme (h d hd))).2.1
  · intro hx
    obtain ⟨d, hd, he⟩ := List.mem_map.mp hx
    exact (schemeChars_lower_facts d (char_mem_scheme (h d hd))).2.2 he

theorem urlsplit_eq (u : List Char) : urlsplit u =
    ⟨(extractScheme u).1, (splitNetloc (extractScheme u).2).1,
     (sepSplit '?' (sepSplit '#' (splitNetloc (extractScheme u).2).2).1).1,
     (sepSplit '?' (sepSplit '#' (splitNetloc (extractScheme u).2).2).1).2,
     (sepSplit '#' (splitNetloc (extractScheme u).2).2).2⟩ := rfl

theorem take_one_slash {path : List Char} (h : path.take 1 = ['/']) :
    ∃ pt, path = '/' :: pt := by
  cases path with
  | nil => simp at h
  | cons d t =>
    refine ⟨t, ?_⟩
    have hd : d = '/' := by simpa using congrArg (fun l => List.headD l ' ') h
    rw [hd]

/-- Re-splitting a URL serialized from a scheme (possibly empty, lowercase,
alphabetic head), a non-empty netloc, a path that is empty or absolute, and
an already-encoded query recovers exactly those components. -/
theorem urlsplit_serialized (s netloc path enc : List Char)
    (hs : s = [] ∨ ∃ c cs, s = (c :: cs).map Char.toLower ∧ c.isAlpha = true ∧
      (c :: cs).all isSchemeChar = true)
    (hnchars : ∀ c ∈ netloc, endsNetloc c = false)
    (hpath : path = [] ∨ path.take 1 = ['/'])
    (hnoq : '?' ∉ path) (hnoh : '#' ∉ path) (hnohe : '#' ∉ enc) :
    urlsplit ((if s ≠ [] then s ++ ':' :: (['/', '/'] ++ netloc ++ path)
      else ['/', '/'] ++ netloc ++ path) ++
      (if enc ≠ [] then '?' :: enc else [])) =
      ⟨s, netloc, path, enc, []⟩ := by
  have hpass : ∀ c ∈ netloc, (!endsNetloc c) = true := by
    intro c hc
    rw [hnchars c hc]
    rfl
  have hBnohash : '#' ∉ path ++ (if enc ≠ [] then '?' :: enc else []) := by
    intro hm
    rcases List.mem_append.mp hm with hm1 | hm1
    · exact hnoh hm1
    · split at hm1
      · rcases List.mem_cons.mp hm1 with he | hm2
        · exact absurd he (by decide)
        · exact hnohe hm2
      · simp at hm1
  have hBshape : (path ++ (if enc ≠ [] then '?' :: enc else [])) = [] ∨
      ∃ d t, (path ++ (if enc ≠ [] then '?' :: enc else [])) = d :: t ∧
        (!endsNetloc d) = false := by
    rcases hpath with rfl | hp
    · rw [List.nil_append]
      split
      · exact Or.inr ⟨'?', enc, rfl, by decide⟩
      · exact Or.inl rfl
    · obtain ⟨pt, rfl⟩ := take_one_slash hp
      exact Or.inr ⟨'/', pt ++ (if enc ≠ [] then '?' :: enc else []),
        by rw [List.cons_append], by decide⟩
  obtain ⟨htw1, htw2⟩ := takeWhile_append_all netloc
    (path ++ (if enc ≠ [] then '?' :: enc else [])) hpass hBshape
  have h2 : splitNetloc (['/', '/'] ++
      (netloc ++ (path ++ (if enc ≠ [] then '?' :: enc else [])))) =
      (netloc, path ++ (if enc ≠ [] then '?' :: enc else [])) := by
    unfold splitNetloc
    rw [if_pos (show (['/', '/'] ++ (netloc ++ (path ++
      (if enc ≠ [] then '?' :: enc else [])))).take 2 = ['/', '/'] from rfl)]
    rw [show (['/', '/'] ++ (netloc ++ (path ++
      (if enc ≠ [] then '?' :: enc else [])))).drop 2 =
      netloc ++ (path ++ (if enc ≠ [] then '?' :: enc else [])) from rfl]
    rw [htw1, htw2]
  have h3 : sepSplit '#' (path ++ (if enc ≠ [] then '?' :: enc else [])) =
      (path ++ (if enc ≠ [] then '?' :: enc else []), []) :=
    sepSplit_of_not_mem hBnohash
  have h4 : sepSplit '?' (path ++ (if enc ≠ [] then '?' :: enc else [])) =
      (path, enc) := by
    cases henc : enc with
    | nil =>
      rw [if_neg (by simp)]
      rw [List.append_nil]
      exact sepSplit_of_not_mem hnoq
    | cons e es =>
      rw [if_pos (by simp), ← henc]
      exact sepSplit_append hnoq
  rcases hs with rfl | ⟨c, cs, hsval, hca, hcall⟩
  · rw [if_neg (by simp)]
    have hcanon : (['/', '/'] ++ netloc ++ path) ++
        (if enc ≠ [] then '?' :: enc else []) =
        ['/', '/'] ++ (netloc ++ (path ++ (if enc ≠ [] then '?' :: enc else []))) := by
      simp [List.append_assoc]
    rw [hcanon]
    have h1 : extractScheme (['/', '/'] ++
        (netloc ++ (path ++ (if enc ≠ [] then '?' :: enc else [])))) =
        ([], ['/', '/'] ++ (netloc ++ (path ++
          (if enc ≠ [] then '?' :: enc else [])))) :=
      extractScheme_head_slash _
    rw [urlsplit_eq, h1]
    dsimp only
    rw [h2]
    dsimp only
    rw [h3]
    dsimp only
    rw [h4]
  · have hsne : s ≠ [] := by rw [hsval]; simp
    rw [if_pos hsne]
    have hcanon : (s ++ ':' :: (['/', '/'] ++ netloc ++ path)) ++
        (if enc ≠ [] then '?' :: enc else []) =
        s ++ ':' :: (['/', '/'] ++ (netloc ++ (path ++
          (if enc ≠ [] then '?' :: enc else [])))) := by
      simp [List.append_assoc]
    rw [hcanon]
    obtain ⟨hall2, hidem, hnocolon⟩ := scheme_lower_all hcall
    have hsp : splitOnFirst ':' (s ++ ':' :: (['/', '/'] ++ (netloc ++ (path ++
        (if enc ≠ [] then '?' :: enc else []))))) =
        some (s, ['/', '/'] ++ (netloc ++ (path ++
          (if enc ≠ [] then '?' :: enc else [])))) :=
      splitOnFirst_append _ _ (hsval ▸ hnocolon)
    have hsp2 : splitOnFirst ':' (s ++ ':' :: (['/', '/'] ++ (netloc ++ (path ++
        (if enc ≠ [] then '?' :: enc else []))))) =
        some (Char.toLower c :: cs.map Char.toLower,
          ['/', '/'] ++ (netloc ++ (path ++
            (if enc ≠ [] then '?' :: enc else [])))) := by
      rw [hsp, hsval]
      rfl
    have hg : ((Char.toLower c).isAlpha &&
        (Char.toLower c :: cs.map Char.toLower).all isSchemeChar) = true := by
      have ha2 : (Char.toLower c).isAlpha = true :=
        alphaChars_lower_alpha c (char_mem_alpha hca)
      have hall3 : (Char.toLower c :: cs.map Char.toLower).all isSchemeChar = true := by
        rw [show Char.toLower c :: cs.map Char.toLower =
          (c :: cs).map Char.toLower from rfl]
        exact hsval ▸ hall2
      rw [ha2, hall3]
      rfl
    have h1 := extractScheme_valid hsp2 hg
    rw [urlsplit_eq, h1]
    dsimp only
    rw [h2]
    dsimp only
    rw [h3]
    dsimp only
    rw [h4]
    dsimp only
    have hfix : (Char.toLower c :: cs.map Char.toLower).map Char.toLower = s := by
      rw [show Char.toLower c :: cs.map Char.toLower =
        (c :: cs).map Char.toLower from rfl]
      rw [← hsval] at hidem ⊢
      exact hidem
    rw [hfix]

theorem urlsplit_path_no_hash (u : List Char) : '#' ∉ (urlsplit u).path := by
  show '#' ∉ (sepSplit '?' (sepSplit '#' (splitNetloc (extractScheme u).2).2).1).1
  intro hm
  exact sepSplit_fst_not_mem '#' _ (sepSplit_fst_subset _ hm)

theorem urlsplit_path_no_qm (u : List Char) : '?' ∉ (urlsplit u).path := by
  show '?' ∉ (sepSplit '?' (sepSplit '#' (splitNetloc (extractScheme u).2).2).1).1
  exact sepSplit_fst_not_mem '?' _

theorem urlsplit_netloc_chars (u : List Char) :
    ∀ c ∈ (urlsplit u).netloc, endsNetloc c = false := by
  show ∀ c ∈ (splitNetloc (extractScheme u).2).1, endsNetloc c = false
  exact splitNetloc_fst_chars _

theorem urlsplit_path_slash (u : List Char) (hnet : (urlsplit u).netloc ≠ []) :
    (urlsplit u).path = [] ∨ (urlsplit u).path.take 1 = ['/'] := by
  have hspec := splitNetloc_spec (extractScheme u).2 hnet
  show (sepSplit '?' (sepSplit '#' (splitNetloc (extractScheme u).2).2).1).1 = [] ∨
    (sepSplit '?' (sepSplit '#' (splitNetloc (extractScheme u).2).2).1).1.take 1 = ['/']
  rcases hspec with hnil | ⟨d, t, heq, hd⟩
  · left
    rw [hnil]
    rfl
  · have hd3 : d = '/' ∨ d = '?' ∨ d = '#' := by
      revert hd
      unfold endsNetloc
      intro hd
      have h4 : (d = '/' ∨ d = '?') ∨ d = '#' := by simpa using hd
      tauto
    rw [heq]
    rcases hd3 with rfl | rfl | rfl
    · obtain ⟨a', ha'⟩ := sepSplit_fst_head (show ¬ '/' = '#' by decide) (t := t)
      rw [ha']
      obtain ⟨a'', ha''⟩ := sepSplit_fst_head (show ¬ '/' = '?' by decide) (t := a')
      rw [ha'']
      right
      rfl
    · obtain ⟨a', ha'⟩ := sepSplit_fst_head (show ¬ '?' = '#' by decide) (t := t)
      rw [ha']
      left
      have h1 := @sepSplit_append '?' [] a' (by simp)
      rw [List.nil_append] at h1
      rw [h1]
    · have h1 := @sepSplit_append '#' [] t (by simp)
      rw [List.nil_append] at h1
      rw [h1]
      left
      rfl

theorem urlsplit_scheme_shape (u : List Char) :
    (urlsplit u).scheme = [] ∨
      ∃ c cs, (urlsplit u).scheme = (c :: cs).map Char.toLower ∧
        c.isAlpha = true ∧ (c :: cs).all isSchemeChar = true :=
  extractScheme_shape u

/-- `normalize_url` written as the concatenation `urlsplit` is applied to:
optional scheme and colon, `//`, netloc, path, optional `?query`. -/
theorem normalize_url_form (u : List Char) (hnet : (urlsplit u).netloc ≠ []) :
    normalize_url u =
      (if (urlsplit u).scheme ≠ [] then (urlsplit u).scheme ++ ':' ::
        (['/', '/'] ++ (urlsplit u).netloc ++ (urlsplit u).path)
      else ['/', '/'] ++ (urlsplit u).netloc ++ (urlsplit u).path) ++
      (if urlencode (keptQuery u) ≠ [] then '?' :: urlencode (keptQuery u) else []) := by
  have hpath' : (if (urlsplit u).path ≠ [] ∧ (urlsplit u).path.take 1 ≠ ['/']
      then '/' :: (urlsplit u).path else (urlsplit u).path) = (urlsplit u).path := by
    rcases urlsplit_path_slash u hnet with hp | hp
    · rw [if_neg]
      rintro ⟨hne, -⟩
      exact hne hp
    · rw [if_neg]
      rintro ⟨-, hne⟩
      exact hne hp
  show urlunsplit ⟨(urlsplit u).scheme, (urlsplit u).netloc, (urlsplit u).path,
      urlencode (keptQuery u), []⟩ = _
  unfold urlunsplit
  dsimp only
  rw [if_pos (Or.inl hnet), hpath']
  rw [if_neg (show ¬(([] : List Char) ≠ []) by simp)]
  by_cases hque : urlencode (keptQuery u) ≠ []
  · rw [if_pos hque, if_pos hque]
  · rw [if_neg hque, if_neg hque, List.append_nil]

/-- Splitting the normalized URL of a netloc-bearing URL recovers the
original scheme, netloc and path, the re-encoded kept query, and no
fragment. -/
theorem urlsplit_normalize (u : List Char) (hnet : (urlsplit u).netloc ≠ []) :
    urlsplit (normalize_url u) =
      ⟨(urlsplit u).scheme, (urlsplit u).netloc, (urlsplit u).path,
        urlencode (keptQuery u), []⟩ := by
  rw [normalize_url_form u hnet]
  exact urlsplit_serialized _ _ _ _ (urlsplit_scheme_shape u)
    (urlsplit_netloc_chars u) (urlsplit_path_slash u hnet)
    (urlsplit_path_no_qm u) (urlsplit_path_no_hash u) (urlencode_no_hash _)

/-- C2 counterexample: for a URL whose scheme is in `uses_netloc` but whose
netloc is empty, `normalize_url` does not preserve the path — `urlunsplit`
reintroduces `//` and makes the relative path absolute. -/
theorem normalize_path_counterexample :
    (urlsplit (normalize_url "http:a".data)).path ≠ (urlsplit "http:a".data).path := by
  decide

/-- C2 (amended): two URLs whose split components agree on scheme, netloc
and path and whose parsed queries keep the same non-tracking pairs (they may
differ in tracking parameters and in the fragment) normalize identically;
and for every URL with a non-empty netloc, splitting the normalized URL
returns the original scheme, netloc and path, the deterministically
re-encoded non-tracking query, and an empty fragment.  (For netloc-less
URLs the path is not always preserved.) -/
theorem normalize_url_spec (u1 u2 u : List Char)
    (heq1 : (urlsplit u1).scheme = (urlsplit u2).scheme)
    (heq2 : (urlsplit u1).netloc = (urlsplit u2).netloc)
    (heq3 : (urlsplit u1).path = (urlsplit u2).path)
    (heq4 : keptQuery u1 = keptQuery u2)
    (hnet : (urlsplit u).netloc ≠ []) :
    normalize_url u1 = normalize_url u2 ∧
    urlsplit (normalize_url u) =
      ⟨(urlsplit u).scheme, (urlsplit u).netloc, (urlsplit u).path,
        urlencode (keptQuery u), []⟩ := by
  constructor
  · show urlunsplit ⟨(urlsplit u1).scheme, (urlsplit u1).netloc, (urlsplit u1).path,
        urlencode (keptQuery u1), []⟩ =
      urlunsplit ⟨(urlsplit u2).scheme, (urlsplit u2).netloc, (urlsplit u2).path,
        urlencode (keptQuery u2), []⟩
    rw [heq1, heq2, heq3, heq4]
  · exact urlsplit_normalize u hnet

/-- C2 witness: a URL with `utm_source`, `fbclid` and a fragment normalizes
identically to its clean counterpart with a different tracking parameter,
and the normalized URL splits into the original components. -/
theorem normalize_url_spec_witness :
    normalize_url "http://ex.com/a?utm_source=x&id=1&fbclid=z#frag".data =
      normalize_url "http://ex.com/a?id=1&utm_medium=y".data ∧
    urlsplit (normalize_url "http://ex.com/a?utm_source=x&id=1&fbclid=z#frag".data) =
      ⟨(urlsplit "http://ex.com/a?utm_source=x&id=1&fbclid=z#frag".data).scheme,
       (urlsplit "http://ex.com/a?utm_source=x&id=1&fbclid=z#frag".data).netloc,
       (urlsplit "http://ex.com/a?utm_source=x&id=1&fbclid=z#frag".data).path,
       urlencode (keptQuery "http://ex.com/a?utm_source=x&id=1&fbclid=z#frag".data),
       []⟩ :=
  normalize_url_spec _ _ _ (by decide) (by decide) (by decide) (by decide) (by decide)

/-- C10: `normalize_url` is idempotent on URLs with a non-empty netloc whose
query consists of code points below 256 (the range where the byte-level
percent-codec model coincides with CPython): splitting the normalized URL
recovers the same components, re-parsing the re-encoded query gives back
exactly the kept pairs, and filtering removes nothing new. -/
theorem normalize_url_idempotent (u : List Char)
    (hnet : (urlsplit u).netloc ≠ [])
    (hq : ∀ c ∈ (urlsplit u).query, c.toNat < 256) :
    normalize_url (normalize_url u) = normalize_url u := by
  have hpres := urlsplit_normalize u hnet
  have hkv := parse_qsl_bound hq
  have hkept : ∀ kv ∈ keptQuery u,
      (∀ c ∈ kv.1, c.toNat < 256) ∧ (∀ c ∈ kv.2, c.toNat < 256) := by
    intro kv hkvm
    exact hkv kv (List.mem_of_mem_filter hkvm)
  have hround : parse_qsl (urlencode (keptQuery u)) = keptQuery u :=
    parse_qsl_urlencode _ hkept
  have hfilter : (keptQuery u).filter (fun kv => !isTrackingKey kv.1) = keptQuery u := by
    apply List.filter_eq_self.mpr
    intro kv hkvm
    exact (List.mem_filter.mp hkvm).2
  show urlunsplit ⟨(urlsplit (normalize_url u)).scheme,
      (urlsplit (normalize_url u)).netloc, (urlsplit (normalize_url u)).path,
      urlencode ((parse_qsl (urlsplit (normalize_url u)).query).filter
        (fun kv => !isTrackingKey kv.1)), []⟩ = normalize_url u
  rw [hpres]
  dsimp only
  rw [hround, hfilter]
  rfl

/-- C10 witness: normalizing an already-normalized tracking URL changes
nothing. -/
theorem normalize_url_idempotent_witness :
    normalize_url (normalize_url "http://ex.com/p?a=1&utm_source=x".data) =
      normalize_url "http://ex.com/p?a=1&utm_source=x".data :=
  normalize_url_idempotent _ (by decide) (by decide)

end TgAutoposter
